import Mathlib

/-!
# Mixtral expert-tensor conversion (`convert/convert_mixtral.go`)

A shallow embedding of the Mixtral converter: the 16-bit word accumulator
`uint16s`, the expert group `expert` with `Kind`, `Shape` and `WriteTo`, the
name rewriter and the partition of `mixtral.Tensors`, and the metadata
function `mixtral.KV`.

Conventions of the embedding:

* a byte is a `Fin 256`, a `uint16` is a `Fin 65536`;
* a Go string is the list of its characters (all patterns are ASCII);
* a Go `error` is an `Option String`, `none` being `nil`;
* a call that can panic returns an `Option`, `none` being the panic; a method
  that writes to a sink returns the sink afterwards beside it;
* the interface `Tensor`, the methods of the embedded struct `llama` and the
  order in which `range` yields the entries of a map are arguments of the
  functions that use them;
* the packages `strings`, `slices`, `encoding/binary` and `tensor` are modelled
  from their documented behaviour, each at its definition below.
-/

namespace Mixtral

/-! ## Bytes, words and the accumulator `uint16s` -/

/-- A byte of a tensor payload. -/
abbrev Byte := Fin 256

/-- An unsigned 16-bit word. -/
abbrev Word := Fin 65536

/-- The Go call `binary.LittleEndian.Uint16` on a two-byte prefix:
`uint16(b[0]) | uint16(b[1])<<8`. -/
def Uint16 (lo hi : Byte) : Word :=
  ⟨lo.val + 256 * hi.val, by omega⟩

/-- The accumulator `type uint16s struct { b []uint16 }`. -/
structure uint16s where
  b : List Word
  deriving DecidableEq, Repr

/-- The loop of `uint16s.Write`: `for n = 0; n < len(p); n += 2`, appending
`binary.LittleEndian.Uint16(p[n:])` to the accumulator. The first argument is
`p[n:]`. A single trailing byte is never met: `Write` enters the loop only with
an even length. -/
def writeLoop : List Byte → List Word → Nat → List Word × Nat
  | lo :: hi :: rest, acc, n => writeLoop rest (acc ++ [Uint16 lo hi]) (n + 2)
  | _, acc, n => (acc, n)

/-- The method `uint16s.Write`: the accumulator after the call, the returned
count and the returned error. -/
def uint16s.Write (u : uint16s) (p : List Byte) : uint16s × Nat × Option String :=
  if p.length % 2 ≠ 0 then
    (u, 0, some "odd length")
  else
    let r := writeLoop p u.b 0
    (⟨r.1⟩, r.2, none)

/-- The method `uint16s.Bits`. -/
def uint16s.Bits (u : uint16s) : List Word := u.b

/-! ## Tensors -/

/-- The `Tensor` interface of the converter, as far as this file uses it:
`Name()`, `Kind()`, `Shape()` and `WriteTo(io.Writer)`. The behaviour of
`WriteTo` is given by the buffers the tensor hands to the writer's `Write`,
in order (`chunks`), and by the error its own reading ends with, if any
(`readErr`). -/
structure Tensor where
  Name : List Char
  Kind : Nat
  Shape : List Nat
  chunks : List (List Byte)
  readErr : Option String
  deriving DecidableEq, Repr

/-- All bytes a tensor streams, in order. -/
def Tensor.bytes (t : Tensor) : List Byte := t.chunks.flatten

/-- The `Write` calls a tensor makes on the accumulator: one per buffer, in
order, stopping at the first call that returns an error. -/
def feed : List (List Byte) → uint16s → uint16s × Option String
  | [], u => (u, none)
  | p :: ps, u =>
    match u.Write p with
    | (u1, _, some err) => (u1, some err)
    | (u1, _, none) => feed ps u1

/-- The call `t.WriteTo(&b)`: the tensor writes its buffers to the accumulator
and returns the first error of a `Write`, else the error of its own reading. -/
def Tensor.WriteTo (t : Tensor) (u : uint16s) : uint16s × Option String :=
  match feed t.chunks u with
  | (u1, some err) => (u1, some err)
  | (u1, none) => (u1, t.readErr)

/-! ## The dense tensors of the package `tensor` and the sink -/

/-- The value of a Go `int` on a 64-bit target: the representative of `z`
modulo `2^64` in the range `[-2^63, 2^63)`. -/
def wrapInt (z : Int) : Int :=
  (9223372036854775808 + z) % 18446744073709551616 - 9223372036854775808

/-- The Go conversion `int(dim)` of a `uint64` on a 64-bit target: the value is
reinterpreted in two's complement. -/
def toInt (d : Nat) : Int := wrapInt d

/-- A dense tensor of 16-bit words of the package `tensor`: its shape and its
backing slice, in row-major order. -/
structure Dense where
  shape : List Int
  data : List Word
  deriving DecidableEq, Repr

/-- The total size of a shape: the product of its dimensions, computed on Go
`int`s. -/
def totalSize (dims : List Int) : Int := wrapInt dims.prod

/-- The constructor `tensor.New(tensor.WithShape(dims...), tensor.WithBacking(b))`.
Model of the external package; `none` is a panic.
* A negative dimension makes the constructor panic.
* For a scalar shape (no dimension) the length of the backing slice is not
  checked; a nil backing slice gives one zero element.
* For another shape a nil backing slice (no word was accumulated) makes the
  constructor allocate a zeroed array of the total size of the shape, and it
  panics when that size is negative.
* Otherwise the constructor panics unless the length of the backing slice, a Go
  `int`, equals the total size of the shape. -/
def tensorNew (dims : List Int) (backing : List Word) : Option Dense :=
  if dims.any (fun d => decide (d < 0)) then none
  else if dims = [] then some ⟨[], if backing = [] then [0] else backing⟩
  else if backing = [] then
    (if totalSize dims < 0 then none
     else some ⟨dims, List.replicate (totalSize dims).toNat 0⟩)
  else if toInt backing.length = totalSize dims then some ⟨dims, backing⟩
  else none

/-- The method `Data` of a dense tensor. Model of the external package; `none`
is a panic. For a scalar shape the method returns the first element; for
another shape it panics (index out of range) on a tensor without elements and
returns the backing slice otherwise. -/
def Dense.Data (d : Dense) : Option (List Word) :=
  match d.shape, d.data with
  | _, [] => none
  | [], x :: _ => some [x]
  | _ :: _, x :: xs => some (x :: xs)

/-- The call `tensor.Stack(axis, t, others...)`. Model of the external package:
with no other operand the first is returned; the axis must not exceed the number
of dimensions of the operands; stacking along axis 0 prepends the number of
operands to the shape and lays the data of the operands out one after the other,
in order. Only axis 0 is modelled. -/
def tensorStack (axis : Nat) (t : Dense) (others : List Dense) : Except String Dense :=
  match others with
  | [] => .ok t
  | _ :: _ =>
    if axis ≠ 0 then .error "stack: axis not modelled"
    else .ok ⟨((others.length + 1 : Nat) : Int) :: t.shape,
              t.data ++ (others.map Dense.data).flatten⟩

/-- The Go call `binary.LittleEndian.PutUint16`: `b[0] = byte(v)`,
`b[1] = byte(v >> 8)`. -/
def PutUint16 (v : Word) : List Byte :=
  [⟨v.val % 256, Nat.mod_lt _ (by decide)⟩, ⟨v.val / 256 % 256, Nat.mod_lt _ (by decide)⟩]

/-- The encoding `binary.Write` makes of a `[]uint16` in little-endian order. -/
def encodeWords (ws : List Word) : List Byte := (ws.map PutUint16).flatten

/-- The sink, an `io.Writer`: the bytes it has received, and the number of
bytes it still accepts, `none` when it accepts any number (an in-memory
buffer). -/
structure Sink where
  data : List Byte
  room : Option Nat
  deriving DecidableEq, Repr

/-- The method `Write` of the sink: the sink afterwards, the returned count and
the returned error. A buffer that fits is appended; of a buffer that does not
fit the part that fits is appended and an error is returned. -/
def Sink.Write (w : Sink) (p : List Byte) : Sink × Nat × Option String :=
  match w.room with
  | none => (⟨w.data ++ p, none⟩, p.length, none)
  | some k =>
    if p.length ≤ k then (⟨w.data ++ p, some (k - p.length)⟩, p.length, none)
    else (⟨w.data ++ p.take k, some 0⟩, k, some "short write")

/-- The call `binary.Write(w, binary.LittleEndian, data)` for 16-bit words: one
`Write` of the encoded words on the sink, whose error is returned. -/
def binaryWrite (w : Sink) (data : List Word) : Sink × Option String :=
  let r := w.Write (encodeWords data)
  (r.1, r.2.2)

/-! ## The expert group -/

/-- The type `expert []Tensor`. -/
abbrev expert := List Tensor

/-- The method `expert.Kind`: `e[0].Kind()`; `none` is the panic of `e[0]` on
an empty group. -/
def expert.Kind (e : expert) : Option Nat :=
  match e with
  | [] => none
  | t :: _ => some t.Kind

/-- The method `expert.Shape`: `append([]uint64{uint64(len(e))}, e[0].Shape()...)`;
`none` is the panic of `e[0]` on an empty group. -/
def expert.Shape (e : expert) : Option (List Nat) :=
  match e with
  | [] => none
  | t :: _ => some (e.length :: t.Shape)

/-- The result of the member loop of `expert.WriteTo`. -/
inductive Loop where
  | panic : Loop
  | fail : String → Loop
  | done : List Dense → Loop
  deriving DecidableEq, Repr

/-- The member loop of `expert.WriteTo` (`for _, t := range e`): each member is
streamed into a fresh accumulator; an error returns at once; otherwise the
accumulated words back a new dense tensor of shape `dims`, appended to `stack`.
The first argument is the rest of the group. -/
def stackLoop (dims : List Int) : List Tensor → List Dense → Loop
  | [], stack => .done stack
  | t :: ts, stack =>
    match t.WriteTo ⟨[]⟩ with
    | (_, some err) => .fail err
    | (b, none) =>
      match tensorNew dims b.Bits with
      | none => .panic
      | some d => stackLoop dims ts (stack ++ [d])

/-- The method `expert.WriteTo` on the sink `w`: the sink afterwards, and the
returned count and error, `none` being a panic. -/
def expert.WriteTo (e : expert) (w : Sink) : Sink × Option (Int × Option String) :=
  match e with
  | [] => (w, none)
  | t0 :: _ =>
    let dims := t0.Shape.map toInt
    match stackLoop dims e [] with
    | .panic => (w, none)
    | .fail err => (w, some (0, some err))
    | .done stack =>
      match stack with
      | [] => (w, none)
      | s0 :: rest =>
        match tensorStack 0 s0 rest with
        | .error err => (w, some (0, some err))
        | .ok stacked =>
          match stacked.Data with
          | none => (w, none)
          | some data =>
            let r := binaryWrite w data
            (r.1, some (0, r.2))

/-! ## The name rewriter -/

/-- The marker of a per-expert tensor name, `".block_sparse_moe.experts."`. -/
def marker : List Char := ".block_sparse_moe.experts.".toList

/-- The call `strings.Contains(s, sub)`. -/
def contains (sub : List Char) : List Char → Bool
  | [] => sub.isPrefixOf []
  | c :: cs => sub.isPrefixOf (c :: cs) || contains sub cs

/-- The old string generated for expert `i`:
`fmt.Sprintf(".block_sparse_moe.experts.%d.", i)`. -/
def expertOld (i : Nat) : List Char := marker ++ Nat.toDigits 10 i ++ ['.']

/-- The table `oldnew` of `mixtral.Tensors`, as (old, new) pairs in argument
order: the four fixed pairs, then one pair per expert index below
`NumLocalExperts`. -/
def oldnew (NumLocalExperts : Nat) : List (List Char × List Char) :=
  [("model.layers".toList, "blk".toList),
   ("w1".toList, "ffn_gate_exps".toList),
   ("w2".toList, "ffn_down_exps".toList),
   ("w3".toList, "ffn_up_exps".toList)] ++
  (List.range NumLocalExperts).map (fun i => (expertOld i, ['.']))

/-- The match a `strings.Replacer` looks up at a position: among the old strings
that start the rest `s` of the input, the first in argument order. -/
def lookup (pairs : List (List Char × List Char)) (s : List Char) :
    Option (List Char × List Char) :=
  pairs.find? (fun p => p.1.isPrefixOf s)

/-- The scan of `strings.Replacer.Replace` for a table without empty old string
(every old string of `oldnew` is non-empty): from left to right, a match is
replaced and the scan resumes after it, matches do not overlap, and a character
where no old string starts is copied. The first argument counts the characters
of the current match still to skip. -/
def replaceFrom (pairs : List (List Char × List Char)) : Nat → List Char → List Char
  | _, [] => []
  | k + 1, _ :: cs => replaceFrom pairs k cs
  | 0, c :: cs =>
    match lookup pairs (c :: cs) with
    | some (old, new) => new ++ replaceFrom pairs (old.length - 1) cs
    | none => c :: replaceFrom pairs 0 cs

/-- The call `strings.NewReplacer(oldnew...).Replace(s)`. -/
def Replace (pairs : List (List Char × List Char)) (s : List Char) : List Char :=
  replaceFrom pairs 0 s

/-! ## The converter `mixtral` -/

/-- The data source of an output tensor, the field `WriterTo` of `llm.Tensor`:
an expert group, or a tensor of the input. -/
inductive Source where
  | group : expert → Source
  | tensor : Tensor → Source
  deriving DecidableEq, Repr

/-- The output tensor `llm.Tensor`. -/
structure llm.Tensor where
  Name : List Char
  Kind : Nat
  Shape : List Nat
  WriterTo : Source
  deriving DecidableEq, Repr

/-- The struct `mixtral`, without the embedded `llama`, whose methods are
arguments of the functions below. -/
structure mixtral where
  NumLocalExperts : Nat
  NumExpertsPerToken : Nat
  deriving DecidableEq, Repr

/-- The map `experts` of `mixtral.Tensors`, `map[string]expert`: the entries in
the order their keys were first set, the keys distinct. -/
abbrev Experts := List (List Char × expert)

/-- The read `experts[name]` of the map: the zero value, `nil`, when the key is
absent. -/
def mapGet : Experts → List Char → expert
  | [], _ => []
  | (k, e) :: m, n => if k = n then e else mapGet m n

/-- The write `experts[name] = e` of the map. -/
def mapSet : Experts → List Char → expert → Experts
  | [], n, e => [(n, e)]
  | (k, e0) :: m, n, e => if k = n then (k, e) :: m else (k, e0) :: mapSet m n e

/-- The closure handed to `slices.DeleteFunc` in `mixtral.Tensors`, with the map
it updates: whether the tensor is deleted, and the map afterwards. -/
def del (namer : List (List Char × List Char)) (experts : Experts) (t : Tensor) :
    Bool × Experts :=
  if !contains marker t.Name then
    (false, experts)
  else
    let name := Replace namer t.Name
    (true, mapSet experts name (mapGet experts name ++ [t]))

/-- The call `slices.DeleteFunc(s, del)` for a closure with a state: the closure
is called once on each element, in order; the elements for which it returns
false are kept, in order. -/
def DeleteFunc {α σ : Type} (del : σ → α → Bool × σ) : List α → σ → List α × σ
  | [], st => ([], st)
  | x :: xs, st =>
    match del st x with
    | (true, st1) => DeleteFunc del xs st1
    | (false, st1) =>
      let r := DeleteFunc del xs st1
      (x :: r.1, r.2)

/-- The loop `for n, e := range experts` of `mixtral.Tensors` over the entries in
the order the iteration yields them: one output tensor is appended per entry;
`none` is the panic of `e[0]` on an empty group. -/
def emitLoop : Experts → List llm.Tensor → Option (List llm.Tensor)
  | [], out => some out
  | (n, e) :: rest, out =>
    match expert.Kind e, expert.Shape e with
    | some k, some sh => emitLoop rest (out ++ [⟨n, k, sh, .group e⟩])
    | _, _ => none

/-- The method `mixtral.Tensors`. The method `llama.Tensors` of the embedded
struct is the argument `llamaTensors`; Go leaves the order in which `range`
yields the entries of a map unspecified, and `rangeMap` gives that order. `none`
is a panic. -/
def mixtral.Tensors (p : mixtral) (llamaTensors : List Tensor → List llm.Tensor)
    (rangeMap : Experts → Experts) (ts : List Tensor) : Option (List llm.Tensor) :=
  let namer := oldnew p.NumLocalExperts
  let r := DeleteFunc (del namer) ts []
  match emitLoop (rangeMap r.2) [] with
  | none => none
  | some out => some (out ++ llamaTensors r.1)

/-- A value of a key/value map, Go `any`: a `uint32`, or another value given by
its text. -/
inductive Value where
  | uint32 : Nat → Value
  | other : String → Value
  deriving DecidableEq, Repr

/-- A key/value map, `map[string]any`. -/
abbrev KVMap := String → Option Value

/-- The write `kv[k] = v` of a key/value map. -/
def KVMap.set (kv : KVMap) (k : String) (v : Value) : KVMap :=
  fun k1 => if k1 = k then some v else kv k1

/-- The method `mixtral.KV`. The map returned by `p.llama.KV(t)` is the argument
`kv`. -/
def mixtral.KV (p : mixtral) (kv : KVMap) : KVMap :=
  let kv1 := if p.NumLocalExperts > 0 then
      kv.set "llama.expert_count" (.uint32 p.NumLocalExperts) else kv
  let kv2 := if p.NumExpertsPerToken > 0 then
      kv1.set "llama.expert_used_count" (.uint32 p.NumExpertsPerToken) else kv1
  kv2

/-! ## Auxiliary definitions of the proofs -/

/-- The words of a byte buffer, two bytes at a time, little-endian. -/
def pairsLE : List Byte → List Word
  | lo :: hi :: rest => Uint16 lo hi :: pairsLE rest
  | _ => []

/-- A member that streams cleanly for the member shape `S`: its reading ends
without error, every buffer it hands over has even length, and it streams
`2 * product(S)` bytes in all. -/
def Streams (S : List Nat) (t : Tensor) : Prop :=
  t.readErr = none ∧ (∀ c ∈ t.chunks, c.length % 2 = 0) ∧ t.bytes.length = 2 * S.prod

/-- Member `i` of the group of the end-to-end example: the tensor
`model.layers.0.block_sparse_moe.experts.i.w1.weight` of shape `[4,4]` and kind
F16 (1), streaming its 32 bytes, all equal to `i`, in one buffer. -/
def exampleMember (i : Nat) : Tensor :=
  { Name := "model.layers.0.block_sparse_moe.experts.".toList ++ Nat.toDigits 10 i ++
      ".w1.weight".toList
    Kind := 1
    Shape := [4, 4]
    chunks := [List.replicate 32 (Fin.ofNat i)]
    readErr := none }

/-- The eight members of the end-to-end example, in index order. -/
def exampleGroup : expert := (List.range 8).map exampleMember

/-- The test of `mixtral.Tensors` that puts the tensor `t` in the group of the
destination name `n`: the name of `t` contains the marker and is rewritten to
`n`. -/
def inGroup (namer : List (List Char × List Char)) (n : List Char) (t : Tensor) : Bool :=
  contains marker t.Name && decide (Replace namer t.Name = n)

/-- The state of the map `experts` after the closure has seen the tensors
`seen`: the keys are distinct, the group of every name is the list of the seen
tensors routed to it, in order, and the keys are the names with a seen tensor. -/
def MapInv (namer : List (List Char × List Char)) (m : Experts) (seen : List Tensor) : Prop :=
  (m.map Prod.fst).Nodup ∧ (∀ n, mapGet m n = seen.filter (inGroup namer n)) ∧
    ∀ n, n ∈ m.map Prod.fst ↔ ∃ t ∈ seen, inGroup namer n t = true

/-- A tensor of the end-to-end example that is no expert tensor. -/
def exampleOther : Tensor :=
  { Name := "model.layers.0.self_attn.q_proj.weight".toList
    Kind := 1
    Shape := [2]
    chunks := [[1, 2, 3, 4]]
    readErr := none }

/-- A member whose stream fails: its reading ends with an error, or one of the
buffers it hands to the accumulator has odd length. -/
def Fails (t : Tensor) : Prop :=
  t.readErr ≠ none ∨ ∃ c ∈ t.chunks, c.length % 2 = 1

/-- A member of shape `[2,2]` that streams two bytes only. -/
def exampleShort : Tensor :=
  { Name := "model.layers.0.block_sparse_moe.experts.0.w1.weight".toList
    Kind := 1
    Shape := [2, 2]
    chunks := [[1, 2]]
    readErr := none }

/-- A member of shape `[2,2]` that hands over a buffer of one byte. -/
def exampleOdd : Tensor :=
  { Name := "model.layers.0.block_sparse_moe.experts.1.w1.weight".toList
    Kind := 1
    Shape := [2, 2]
    chunks := [[1]]
    readErr := none }

/-- The group of the end-to-end example without the tensor of expert 3. -/
def exampleMissing : List Tensor := [0, 1, 2, 4, 5, 6, 7].map exampleMember

/-- The projection tokens of a per-expert tensor name with the token each is
rewritten to: the second to fourth pair of `oldnew`. -/
def projections : List (List Char × List Char) :=
  [("w1".toList, "ffn_gate_exps".toList),
   ("w2".toList, "ffn_down_exps".toList),
   ("w3".toList, "ffn_up_exps".toList)]

/-- The four fixed pairs of `oldnew`. -/
def fixedPairs : List (List Char × List Char) :=
  [("model.layers".toList, "blk".toList),
   ("w1".toList, "ffn_gate_exps".toList),
   ("w2".toList, "ffn_down_exps".toList),
   ("w3".toList, "ffn_up_exps".toList)]

/-- A member of shape `[1]` that streams its two bytes in two buffers of one
byte. -/
def exampleSplit : Tensor :=
  { Name := "model.layers.0.block_sparse_moe.experts.0.w1.weight".toList
    Kind := 1
    Shape := [1]
    chunks := [[1], [2]]
    readErr := none }

/-- A member of shape `[0]`, without element, that streams no byte. -/
def exampleNoElement : Tensor :=
  { Name := "model.layers.0.block_sparse_moe.experts.0.w1.weight".toList
    Kind := 1
    Shape := [0]
    chunks := []
    readErr := none }

/-- A member of shape `[1]` that streams its two bytes in one buffer and whose
reading then ends with an error. -/
def exampleReadErr : Tensor :=
  { Name := "model.layers.0.block_sparse_moe.experts.0.w1.weight".toList
    Kind := 1
    Shape := [1]
    chunks := [[1, 2]]
    readErr := some "unexpected EOF" }

/-- A member of shape `[1]` that streams its two bytes in one buffer. -/
def exampleOne : Tensor :=
  { Name := "model.layers.0.block_sparse_moe.experts.0.w1.weight".toList
    Kind := 1
    Shape := [1]
    chunks := [[1, 2]]
    readErr := none }

/-- A member of shape `[2,2]` that streams no byte. -/
def exampleEmpty : Tensor :=
  { Name := "model.layers.0.block_sparse_moe.experts.0.w1.weight".toList
    Kind := 1
    Shape := [2, 2]
    chunks := []
    readErr := none }

/-! ## Facts about the accumulator -/

theorem writeLoop_eq (p : List Byte) (acc : List Word) (n : Nat) :
    writeLoop p acc n = (acc ++ pairsLE p, n + 2 * (p.length / 2)) := by
  induction p using pairsLE.induct generalizing acc n with
  | case1 lo hi rest ih =>
    rw [writeLoop, ih, pairsLE]
    simp only [List.append_assoc, List.singleton_append, List.length_cons, Prod.mk.injEq,
      true_and]
    omega
  | case2 p h =>
    match p, h with
    | [], _ => simp [writeLoop, pairsLE]
    | [x], _ => simp [writeLoop, pairsLE]
    | lo :: hi :: rest, h => exact absurd rfl (h lo hi rest)

theorem pairsLE_length (p : List Byte) : (pairsLE p).length = p.length / 2 := by
  induction p using pairsLE.induct with
  | case1 lo hi rest ih =>
    simp only [pairsLE, List.length_cons, ih]
    omega
  | case2 p h =>
    match p, h with
    | [], _ => simp [pairsLE]
    | [x], _ => simp [pairsLE]
    | lo :: hi :: rest, h => exact absurd rfl (h lo hi rest)

theorem pairsLE_getElem (p : List Byte) (j : Nat) (hj : j < p.length / 2) :
    ∃ lo hi, p[2 * j]? = some lo ∧ p[2 * j + 1]? = some hi ∧
      (pairsLE p)[j]? = some (Uint16 lo hi) := by
  induction p using pairsLE.induct generalizing j with
  | case1 lo hi rest ih =>
    cases j with
    | zero => exact ⟨lo, hi, by simp [pairsLE]⟩
    | succ j =>
      have hj1 : j < rest.length / 2 := by
        simp only [List.length_cons] at hj
        omega
      obtain ⟨a, b, h1, h2, h3⟩ := ih j hj1
      refine ⟨a, b, ?_, ?_, ?_⟩
      · rw [show 2 * (j + 1) = 2 * j + 1 + 1 by ring]
        simpa using h1
      · rw [show 2 * (j + 1) + 1 = 2 * j + 1 + 1 + 1 by ring]
        simpa using h2
      · simpa [pairsLE] using h3
  | case2 p h =>
    match p, h with
    | [], _ => exact absurd hj (by simp)
    | [x], _ => exact absurd hj (by simp only [List.length_singleton]; omega)
    | lo :: hi :: rest, h => exact absurd rfl (h lo hi rest)

theorem Write_even (u : uint16s) (p : List Byte) (h : p.length % 2 = 0) :
    u.Write p = (⟨u.b ++ pairsLE p⟩, p.length, none) := by
  unfold uint16s.Write
  rw [if_neg (by simp [h]), writeLoop_eq]
  simp only [Nat.zero_add, Prod.mk.injEq, true_and, and_true]
  omega

theorem Write_odd (u : uint16s) (p : List Byte) (h : p.length % 2 = 1) :
    u.Write p = (u, 0, some "odd length") := by
  unfold uint16s.Write
  rw [if_pos (by simp [h])]

/-- C8: on a buffer of even length `Write` returns no error and the count
`len(p)`; the accumulator keeps the words it had and gains `len(p)/2` words, the
`j`-th of them being `p[2j] + 256 * p[2j+1]`. -/
theorem uint16s_Write_even (u : uint16s) (p : List Byte) (h : p.length % 2 = 0) :
    (u.Write p).2.2 = none ∧ (u.Write p).2.1 = p.length ∧
    (u.Write p).1.Bits.length = u.b.length + p.length / 2 ∧
    (u.Write p).1.Bits.take u.b.length = u.b ∧
    ∀ j, j < p.length / 2 → ∃ lo hi, p[2 * j]? = some lo ∧ p[2 * j + 1]? = some hi ∧
      (u.Write p).1.Bits[u.b.length + j]? = some (Uint16 lo hi) ∧
      (Uint16 lo hi).val = lo.val + 256 * hi.val := by
  rw [Write_even u p h]
  refine ⟨rfl, rfl, ?_, ?_, ?_⟩
  · simp [uint16s.Bits, pairsLE_length]
  · simp [uint16s.Bits]
  · intro j hj
    obtain ⟨lo, hi, h1, h2, h3⟩ := pairsLE_getElem p j hj
    refine ⟨lo, hi, h1, h2, ?_, rfl⟩
    simp only [uint16s.Bits]
    rw [List.getElem?_append_right (Nat.le_add_right _ _)]
    simpa using h3

/-- Witness of C8: the buffer `[0x34, 0x12, 0xcd, 0xab]` written to an
accumulator holding the word 7. -/
theorem uint16s_Write_even_witness :
    ([0x34, 0x12, 0xcd, 0xab] : List Byte).length % 2 = 0 ∧
    (uint16s.Write ⟨[7]⟩ [0x34, 0x12, 0xcd, 0xab]).2.1 = 4 ∧
    (uint16s.Write ⟨[7]⟩ [0x34, 0x12, 0xcd, 0xab]).1.Bits = [7, 0x1234, 0xabcd] :=
  ⟨by decide, (uint16s_Write_even ⟨[7]⟩ [0x34, 0x12, 0xcd, 0xab] (by decide)).2.1, by decide⟩

/-- C9: on a buffer of odd length `Write` returns an error and the count 0 and
leaves the accumulator as it was; and `Write` returns an error only on a buffer
of odd length. -/
theorem uint16s_Write_odd (u : uint16s) (p : List Byte) :
    (p.length % 2 = 1 →
      (u.Write p).2.2 = some "odd length" ∧ (u.Write p).2.1 = 0 ∧ (u.Write p).1 = u) ∧
    ((u.Write p).2.2 ≠ none → p.length % 2 = 1) := by
  constructor
  · intro h
    rw [Write_odd u p h]
    exact ⟨rfl, rfl, rfl⟩
  · intro h
    rcases Nat.mod_two_eq_zero_or_one p.length with h0 | h1
    · rw [Write_even u p h0] at h
      exact absurd rfl h
    · exact h1

/-- Witness of C9: a buffer of 2047 bytes. -/
theorem uint16s_Write_odd_witness :
    (List.replicate 2047 (0 : Byte)).length % 2 = 1 ∧
    (uint16s.Write ⟨[7]⟩ (List.replicate 2047 0)).2.2 = some "odd length" ∧
    (uint16s.Write ⟨[7]⟩ (List.replicate 2047 0)).2.1 = 0 ∧
    (uint16s.Write ⟨[7]⟩ (List.replicate 2047 0)).1 = ⟨[7]⟩ :=
  ⟨by rw [List.length_replicate],
    (uint16s_Write_odd ⟨[7]⟩ (List.replicate 2047 0)).1 (by rw [List.length_replicate])⟩

/-! ## Facts about `expert.WriteTo` -/

theorem pairsLE_append (a b : List Byte) (h : a.length % 2 = 0) :
    pairsLE (a ++ b) = pairsLE a ++ pairsLE b := by
  induction a using pairsLE.induct with
  | case1 lo hi rest ih =>
    have hr : rest.length % 2 = 0 := by
      simp only [List.length_cons] at h
      omega
    simp [pairsLE, ih hr]
  | case2 p hp =>
    match p, hp with
    | [], _ => simp [pairsLE]
    | [x], _ => simp at h
    | lo :: hi :: rest, hp => exact absurd rfl (hp lo hi rest)

theorem flatten_even (cs : List (List Byte)) (h : ∀ c ∈ cs, c.length % 2 = 0) :
    cs.flatten.length % 2 = 0 := by
  induction cs with
  | nil => rfl
  | cons c cs ih =>
    have h1 := h c (List.mem_cons_self _ _)
    have h2 := ih (fun x hx => h x (List.mem_cons_of_mem _ hx))
    simp only [List.flatten_cons, List.length_append]
    omega

theorem feed_even (cs : List (List Byte)) (u : uint16s) (h : ∀ c ∈ cs, c.length % 2 = 0) :
    feed cs u = (⟨u.b ++ pairsLE cs.flatten⟩, none) := by
  induction cs generalizing u with
  | nil => simp [feed, pairsLE]
  | cons c cs ih =>
    have h1 := h c (List.mem_cons_self _ _)
    have h2 := ih (u := ⟨u.b ++ pairsLE c⟩) (fun x hx => h x (List.mem_cons_of_mem _ hx))
    simp only [feed, Write_even u c h1, h2, List.flatten_cons, pairsLE_append c _ h1,
      List.append_assoc]

theorem encodeWords_append (a b : List Word) :
    encodeWords (a ++ b) = encodeWords a ++ encodeWords b := by
  simp [encodeWords]

theorem PutUint16_Uint16 (lo hi : Byte) : PutUint16 (Uint16 lo hi) = [lo, hi] := by
  have h1 := lo.isLt
  have h2 := hi.isLt
  simp only [PutUint16, Uint16, List.cons.injEq, and_true]
  constructor <;> apply Fin.ext <;> simp only <;> omega

theorem encodeWords_pairsLE (p : List Byte) (h : p.length % 2 = 0) :
    encodeWords (pairsLE p) = p := by
  induction p using pairsLE.induct with
  | case1 lo hi rest ih =>
    have hr : rest.length % 2 = 0 := by
      simp only [List.length_cons] at h
      omega
    have := ih hr
    simp only [encodeWords] at this
    simp [pairsLE, encodeWords, PutUint16_Uint16, this]
  | case2 p hp =>
    match p, hp with
    | [], _ => simp [pairsLE, encodeWords]
    | [x], _ => simp at h
    | lo :: hi :: rest, hp => exact absurd rfl (hp lo hi rest)

theorem wrapInt_modEq (z : Int) : Int.ModEq 18446744073709551616 (wrapInt z) z := by
  unfold Int.ModEq wrapInt
  omega

theorem wrapInt_congr (a b : Int) (h : Int.ModEq 18446744073709551616 a b) :
    wrapInt a = wrapInt b := by
  unfold Int.ModEq at h
  unfold wrapInt
  omega

theorem prod_map_toInt (S : List Nat) :
    Int.ModEq 18446744073709551616 (S.map toInt).prod ((S.prod : Nat) : Int) := by
  induction S with
  | nil => exact Int.ModEq.refl _
  | cons d S ih =>
    have h := Int.ModEq.mul (wrapInt_modEq (d : Int)) ih
    have e1 : ((d :: S).map toInt).prod = wrapInt (d : Int) * (S.map toInt).prod := by
      rw [List.map_cons, List.prod_cons]; rfl
    have e2 : (((d :: S).prod : Nat) : Int) = (d : Int) * ((S.prod : Nat) : Int) := by
      rw [List.prod_cons, Nat.cast_mul]
    rw [e1, e2]
    exact h

theorem totalSize_map_toInt (S : List Nat) : totalSize (S.map toInt) = toInt S.prod := by
  unfold totalSize toInt
  exact wrapInt_congr _ _ (prod_map_toInt S)

theorem toInt_of_lt (d : Nat) (h : d < 9223372036854775808) : toInt d = (d : Int) := by
  unfold toInt wrapInt
  omega

theorem le_prod_of_mem (S : List Nat) (d : Nat) (hd : d ∈ S) (hpos : 0 < S.prod) :
    d ≤ S.prod :=
  Nat.le_of_dvd hpos (List.dvd_prod hd)

theorem dims_nonneg (S : List Nat) (hpos : 0 < S.prod) (hlt : S.prod < 9223372036854775808) :
    (S.map toInt).any (fun d => decide (d < 0)) = false := by
  rw [List.any_eq_false]
  intro x hx
  obtain ⟨d, hd, rfl⟩ := List.mem_map.1 hx
  have hle := le_prod_of_mem S d hd hpos
  rw [toInt_of_lt d (by omega)]
  have : ¬ ((d : Int) < 0) := by omega
  rw [decide_eq_false this]
  exact Bool.false_ne_true

theorem tensorNew_ok (S : List Nat) (backing : List Word) (hpos : 0 < S.prod)
    (hlt : S.prod < 9223372036854775808) (h : backing.length = S.prod) :
    tensorNew (S.map toInt) backing = some ⟨S.map toInt, backing⟩ := by
  have hb : backing ≠ [] := by
    intro hb
    rw [hb, List.length_nil] at h
    omega
  unfold tensorNew
  rw [if_neg (by rw [dims_nonneg S hpos hlt]; exact Bool.false_ne_true)]
  by_cases hS : S.map toInt = []
  · rw [if_pos hS, if_neg hb, hS]
  · rw [if_neg hS, if_neg hb, if_pos (by rw [totalSize_map_toInt, h])]

theorem WriteTo_streams (S : List Nat) (t : Tensor) (h : Streams S t) :
    t.WriteTo ⟨[]⟩ = (⟨pairsLE t.bytes⟩, none) ∧ (pairsLE t.bytes).length = S.prod := by
  obtain ⟨h1, h2, h3⟩ := h
  constructor
  · simp [Tensor.WriteTo, feed_even t.chunks ⟨[]⟩ h2, h1, Tensor.bytes]
  · rw [pairsLE_length, h3]
    omega

theorem stackLoop_streams (S : List Nat) (e : List Tensor) (stack : List Dense)
    (hpos : 0 < S.prod) (hlt : S.prod < 9223372036854775808) (h : ∀ t ∈ e, Streams S t) :
    stackLoop (S.map toInt) e stack =
      .done (stack ++ e.map (fun t => ⟨S.map toInt, pairsLE t.bytes⟩)) := by
  induction e generalizing stack with
  | nil => simp [stackLoop]
  | cons t ts ih =>
    obtain ⟨h1, h2⟩ := WriteTo_streams S t (h t (List.mem_cons_self _ _))
    have hn : tensorNew (S.map toInt) (uint16s.Bits ⟨pairsLE t.bytes⟩) = _ :=
      tensorNew_ok S (pairsLE t.bytes) hpos hlt h2
    rw [stackLoop, h1]
    simp only []
    rw [hn]
    simp only []
    rw [ih _ (fun x hx => h x (List.mem_cons_of_mem _ hx)), List.map_cons, List.append_assoc,
      List.singleton_append]

theorem tensorStack_data (s0 : Dense) (rest : List Dense) :
    ∃ d, tensorStack 0 s0 rest = .ok d ∧ d.data = ((s0 :: rest).map Dense.data).flatten ∧
      (d.shape = [] → rest = [] ∧ s0.shape = []) := by
  cases rest with
  | nil => exact ⟨s0, rfl, by simp, fun h => ⟨rfl, h⟩⟩
  | cons r rs => exact ⟨_, rfl, by simp, fun h => by simp at h⟩

theorem Dense_Data_ok (d : Dense) (hne : d.data ≠ [])
    (hs : d.shape = [] → d.data.length = 1) : d.Data = some d.data := by
  obtain ⟨shape, data⟩ := d
  cases data with
  | nil => exact absurd rfl hne
  | cons x xs =>
    cases shape with
    | nil =>
      have h1 := hs rfl
      have hx : xs = [] := by
        simp only [List.length_cons] at h1
        exact List.length_eq_zero.1 (by omega)
      subst hx
      rfl
    | cons a as => rfl

theorem encodeWords_flatten (e : List Tensor) (S : List Nat) (h : ∀ t ∈ e, Streams S t) :
    encodeWords ((e.map (fun t => pairsLE t.bytes)).flatten) = (e.map Tensor.bytes).flatten := by
  induction e with
  | nil => simp [encodeWords]
  | cons t ts ih =>
    have ht := h t (List.mem_cons_self _ _)
    have hev : t.bytes.length % 2 = 0 := by
      rw [ht.2.2]
      omega
    simp only [List.map_cons, List.flatten_cons, encodeWords_append,
      encodeWords_pairsLE _ hev, ih (fun x hx => h x (List.mem_cons_of_mem _ hx))]

theorem WriteTo_streams_eq (t0 : Tensor) (ts : List Tensor) (w : Sink)
    (hpos : 0 < t0.Shape.prod) (hlt : t0.Shape.prod < 9223372036854775808)
    (h : ∀ t ∈ t0 :: ts, Streams t0.Shape t) :
    expert.WriteTo (t0 :: ts) w =
      ((w.Write ((t0 :: ts).map Tensor.bytes).flatten).1,
        some (0, (w.Write ((t0 :: ts).map Tensor.bytes).flatten).2.2)) := by
  have hl := stackLoop_streams t0.Shape (t0 :: ts) [] hpos hlt h
  have he := encodeWords_flatten (t0 :: ts) t0.Shape h
  have hw0 := (WriteTo_streams t0.Shape t0 (h t0 (List.mem_cons_self _ _))).2
  simp only [List.map_cons, List.nil_append] at hl
  obtain ⟨d, hd1, hd2, hd3⟩ := tensorStack_data ⟨t0.Shape.map toInt, pairsLE t0.bytes⟩
    (ts.map (fun t => ⟨t0.Shape.map toInt, pairsLE t.bytes⟩))
  have hdata : d.data = ((t0 :: ts).map (fun t => pairsLE t.bytes)).flatten := by
    rw [hd2]
    simp only [List.map_cons, List.map_map, Function.comp_def]
  have hne : d.data ≠ [] := by
    rw [hdata, List.map_cons, List.flatten_cons]
    intro hnil
    have := congrArg List.length hnil
    simp only [List.length_append, List.length_nil] at this
    omega
  have hs : d.shape = [] → d.data.length = 1 := by
    intro hsh
    obtain ⟨hr, hS⟩ := hd3 hsh
    have hts : ts = [] := by simpa using hr
    have hS0 : t0.Shape = [] := by simpa using hS
    rw [hdata, hts]
    simp only [List.map_cons, List.map_nil, List.flatten_cons, List.flatten_nil,
      List.append_nil, hw0, hS0, List.prod_nil]
  simp only [expert.WriteTo, hl, hd1, Dense_Data_ok d hne hs, binaryWrite, hdata, he]

theorem Sink_Write_fits (w : Sink) (p : List Byte) (h : ∀ k, w.room = some k → p.length ≤ k) :
    (w.Write p).2.2 = none ∧ (w.Write p).1.data = w.data ++ p := by
  unfold Sink.Write
  cases hr : w.room with
  | none => exact ⟨rfl, rfl⟩
  | some k =>
    simp only []
    rw [if_pos (h k hr)]
    exact ⟨rfl, rfl⟩

theorem Sink_Write_none (w : Sink) (p : List Byte) (h : (w.Write p).2.2 = none) :
    (w.Write p).1.data = w.data ++ p := by
  unfold Sink.Write at h ⊢
  cases hr : w.room with
  | none => rfl
  | some k =>
    rw [hr] at h
    simp only [] at h ⊢
    by_cases hk : p.length ≤ k
    · rw [if_pos hk]
    · rw [if_neg hk] at h
      exact absurd h (by simp)

theorem flatten_bytes_length (n : Nat) (l : List Tensor)
    (hl : ∀ t ∈ l, t.bytes.length = 2 * n) :
    ((l.map Tensor.bytes).flatten).length = l.length * n * 2 := by
  induction l with
  | nil => simp
  | cons t l ih =>
    have h1 := hl t (List.mem_cons_self _ _)
    have h2 := ih (fun x hx => hl x (List.mem_cons_of_mem _ hx))
    simp only [List.map_cons, List.flatten_cons, List.length_append, h1, h2, List.length_cons]
    ring

theorem flatten_slice (L : List (List Byte)) (n : Nat) (h : ∀ l ∈ L, l.length = n) (i : Nat)
    (hi : i < L.length) : (L.flatten.drop (i * n)).take n = L[i] := by
  induction L generalizing i with
  | nil => simp at hi
  | cons l L ih =>
    have hl := h l (List.mem_cons_self _ _)
    cases i with
    | zero => simp [List.take_append_eq_append_take, hl]
    | succ i =>
      have hi1 : i < L.length := by simpa using hi
      have := ih (fun x hx => h x (List.mem_cons_of_mem _ hx)) i hi1
      rw [List.flatten_cons, List.drop_append_eq_append_drop]
      have e1 : (i + 1) * n - l.length = i * n := by rw [hl]; ring_nf; omega
      have e2 : List.drop ((i + 1) * n) l = [] := by
        apply List.drop_eq_nil_of_le
        rw [hl]; ring_nf; omega
      rw [e1, e2, List.nil_append, this]
      simp

/-- C1, as stated, fails: a member of shape `[1]` that streams its two bytes in
two buffers of one byte streams an even number of bytes equal to
`2 * product(shape)`, yet `WriteTo` returns the error of the accumulator and
writes nothing; on a member of shape `[0]` that streams no byte `WriteTo`
panics; a member whose reading ends with an error after its bytes makes
`WriteTo` return that error; and a sink that accepts one byte only receives one
byte. -/
theorem expert_WriteTo_roundtrip_counterexample :
    (exampleSplit.bytes.length = 2 * exampleSplit.Shape.prod ∧
      exampleSplit.bytes.length % 2 = 0 ∧
      expert.WriteTo [exampleSplit] ⟨[], none⟩ = (⟨[], none⟩, some (0, some "odd length"))) ∧
    (exampleNoElement.bytes.length = 2 * exampleNoElement.Shape.prod ∧
      expert.WriteTo [exampleNoElement] ⟨[], none⟩ = (⟨[], none⟩, none)) ∧
    (exampleReadErr.bytes.length = 2 * exampleReadErr.Shape.prod ∧
      expert.WriteTo [exampleReadErr] ⟨[], none⟩ =
        (⟨[], none⟩, some (0, some "unexpected EOF"))) ∧
    (exampleOne.bytes.length = 2 * exampleOne.Shape.prod ∧
      expert.WriteTo [exampleOne] ⟨[], some 1⟩ =
        (⟨[1], some 0⟩, some (0, some "short write"))) := by
  decide

/-- C1, amended: a non-empty group whose members each stream, without error and
in buffers of even length, `2 * product(shape of e[0])` bytes, that product
being at least 1 and below `2^63`, and a sink that accepts the bytes: `WriteTo`
returns no error and appends to the sink the members' byte streams one after
the other in group order; slice `i` of that length is member `i`, byte for
byte, and decoding a member into little-endian words and encoding them again
gives its bytes. -/
theorem expert_WriteTo_roundtrip (t0 : Tensor) (ts : List Tensor) (w : Sink)
    (h : ∀ t ∈ t0 :: ts, t.readErr = none ∧ (∀ c ∈ t.chunks, c.length % 2 = 0) ∧
      t.bytes.length = 2 * t0.Shape.prod)
    (hpos : 0 < t0.Shape.prod) (hlt : t0.Shape.prod < 9223372036854775808)
    (hroom : ∀ k, w.room = some k → (t0 :: ts).length * t0.Shape.prod * 2 ≤ k) :
    ∃ out n w1, expert.WriteTo (t0 :: ts) w = (w1, some (n, none)) ∧
      w1.data = w.data ++ out ∧
      out = ((t0 :: ts).map Tensor.bytes).flatten ∧
      ∀ i (hi : i < (t0 :: ts).length),
        (out.drop (i * (2 * t0.Shape.prod))).take (2 * t0.Shape.prod) = ((t0 :: ts)[i]).bytes ∧
        encodeWords (((t0 :: ts)[i]).WriteTo ⟨[]⟩).1.Bits = ((t0 :: ts)[i]).bytes := by
  have hlen := flatten_bytes_length t0.Shape.prod (t0 :: ts) (fun t ht => (h t ht).2.2)
  obtain ⟨f1, f2⟩ := Sink_Write_fits w ((t0 :: ts).map Tensor.bytes).flatten
    (fun k hk => hlen ▸ hroom k hk)
  refine ⟨_, 0, _, ?_, f2, rfl, ?_⟩
  · rw [WriteTo_streams_eq t0 ts w hpos hlt h, f1]
  intro i hi
  have hm : (t0 :: ts)[i] ∈ t0 :: ts := List.getElem_mem _
  constructor
  · have hlen : ∀ l ∈ (t0 :: ts).map Tensor.bytes, l.length = 2 * t0.Shape.prod := by
      intro l hl
      obtain ⟨t, ht, rfl⟩ := List.mem_map.1 hl
      exact (h t ht).2.2
    have := flatten_slice ((t0 :: ts).map Tensor.bytes) _ hlen i (by simpa using hi)
    rw [this]
    exact List.getElem_map _
  · rw [(WriteTo_streams t0.Shape _ (h _ hm)).1]
    apply encodeWords_pairsLE
    rw [(h _ hm).2.2]
    omega

/-- Witness of C1, amended: the eight members of the end-to-end example and an
in-memory sink. -/
theorem expert_WriteTo_roundtrip_witness :
    ∃ out n w1, expert.WriteTo
        (exampleMember 0 :: (List.range 7).map (fun i => exampleMember (i + 1))) ⟨[], none⟩ =
        (w1, some (n, none)) ∧
      w1.data = (⟨[], none⟩ : Sink).data ++ out ∧
      out = ((exampleMember 0 :: (List.range 7).map (fun i => exampleMember (i + 1))).map
        Tensor.bytes).flatten ∧
      ∀ i (hi : i < (exampleMember 0 :: (List.range 7).map
          (fun i => exampleMember (i + 1))).length),
        (out.drop (i * (2 * (exampleMember 0).Shape.prod))).take
            (2 * (exampleMember 0).Shape.prod) =
          ((exampleMember 0 :: (List.range 7).map (fun i => exampleMember (i + 1)))[i]).bytes ∧
        encodeWords (((exampleMember 0 :: (List.range 7).map
          (fun i => exampleMember (i + 1)))[i]).WriteTo ⟨[]⟩).1.Bits =
          ((exampleMember 0 :: (List.range 7).map (fun i => exampleMember (i + 1)))[i]).bytes :=
  expert_WriteTo_roundtrip (exampleMember 0) ((List.range 7).map (fun i => exampleMember (i + 1)))
    ⟨[], none⟩ (by decide) (by decide) (by decide) (fun k hk => by cases hk)

/-- C2: for a non-empty group of `N` members, `Shape` returns `N` followed by
the dimensions of the first member in their order and `Kind` returns the kind of
the first member; when the members share the shape `S` and the kind `K`, these
are `[N] ++ S` and `K`. -/
theorem expert_Shape_Kind (e : expert) (h : e ≠ []) :
    expert.Shape e = some ([e.length] ++ (e.head h).Shape) ∧
    expert.Kind e = some (e.head h).Kind ∧
    ∀ S K, (∀ t ∈ e, t.Shape = S ∧ t.Kind = K) →
      expert.Shape e = some ([e.length] ++ S) ∧ expert.Kind e = some K := by
  cases e with
  | nil => exact absurd rfl h
  | cons t ts =>
    refine ⟨rfl, rfl, ?_⟩
    intro S K hSK
    obtain ⟨h1, h2⟩ := hSK t (List.mem_cons_self _ _)
    simp [expert.Shape, expert.Kind, h1, h2]

/-- Witness of C2: the group of the end-to-end example has shape `[8,4,4]` and
kind F16. -/
theorem expert_Shape_Kind_witness :
    expert.Shape exampleGroup = some [8, 4, 4] ∧ expert.Kind exampleGroup = some 1 :=
  (expert_Shape_Kind exampleGroup (by decide)).2.2 [4, 4] 1 (by decide)

/-- C6, as stated, fails: of two members sharing the shape `[1]`, each
streaming exactly `2 * product(S) = 2` bytes in two buffers of one byte,
`WriteTo` writes no byte, not 4, and returns the error of the accumulator; of
two members whose reading ends with an error after their bytes it writes no
byte either; into a sink that accepts one byte only it writes one byte; and on
two members of shape `[0]` it panics. -/
theorem expert_WriteTo_length_counterexample :
    ((∀ t ∈ [exampleSplit, exampleSplit],
        t.Shape = [1] ∧ t.readErr = none ∧ t.bytes.length = 2 * [1].prod) ∧
      expert.WriteTo [exampleSplit, exampleSplit] ⟨[], none⟩ =
        (⟨[], none⟩, some (0, some "odd length")) ∧
      (⟨[], none⟩ : Sink).data.length ≠ [exampleSplit, exampleSplit].length * [1].prod * 2) ∧
    ((∀ t ∈ [exampleReadErr, exampleReadErr],
        t.Shape = [1] ∧ t.bytes.length = 2 * [1].prod) ∧
      expert.WriteTo [exampleReadErr, exampleReadErr] ⟨[], none⟩ =
        (⟨[], none⟩, some (0, some "unexpected EOF"))) ∧
    ((∀ t ∈ [exampleOne, exampleOne], t.Shape = [1] ∧ t.bytes.length = 2 * [1].prod) ∧
      expert.WriteTo [exampleOne, exampleOne] ⟨[], some 1⟩ =
        (⟨[1], some 0⟩, some (0, some "short write"))) ∧
    ((∀ t ∈ [exampleNoElement, exampleNoElement],
        t.Shape = [0] ∧ t.bytes.length = 2 * [0].prod) ∧
      expert.WriteTo [exampleNoElement, exampleNoElement] ⟨[], none⟩ = (⟨[], none⟩, none)) := by
  decide

/-- C6, amended: a group of `N ≥ 1` members sharing the shape `S`, each streaming
without error and in buffers of even length `2 * product(S)` bytes, that
product being at least 1 and below `2^63`, and a sink that accepts the bytes:
`WriteTo` returns no error and writes `N * product(S) * 2` bytes to the sink,
that is twice the product of the dimensions of `Shape`. -/
theorem expert_WriteTo_length (t0 : Tensor) (ts : List Tensor) (w : Sink) (S : List Nat)
    (hS : ∀ t ∈ t0 :: ts, t.Shape = S)
    (h : ∀ t ∈ t0 :: ts, t.readErr = none ∧ (∀ c ∈ t.chunks, c.length % 2 = 0) ∧
      t.bytes.length = 2 * S.prod)
    (hpos : 0 < S.prod) (hlt : S.prod < 9223372036854775808)
    (hroom : ∀ k, w.room = some k → (t0 :: ts).length * S.prod * 2 ≤ k) :
    ∃ out n w1 sh, expert.WriteTo (t0 :: ts) w = (w1, some (n, none)) ∧
      w1.data = w.data ++ out ∧
      out.length = (t0 :: ts).length * S.prod * 2 ∧
      expert.Shape (t0 :: ts) = some sh ∧ out.length = 2 * sh.prod := by
  have h0 : t0.Shape = S := hS t0 (List.mem_cons_self _ _)
  subst h0
  have hout := flatten_bytes_length t0.Shape.prod (t0 :: ts) (fun t ht => (h t ht).2.2)
  obtain ⟨f1, f2⟩ := Sink_Write_fits w ((t0 :: ts).map Tensor.bytes).flatten
    (fun k hk => hout ▸ hroom k hk)
  refine ⟨_, 0, _, _, ?_, f2, hout, rfl, ?_⟩
  · rw [WriteTo_streams_eq t0 ts w hpos hlt h, f1]
  · rw [hout, List.prod_cons]
    ring

/-- Witness of C6, amended: the eight members of shape `[4,4]` of the end-to-end
example give 256 bytes. -/
theorem expert_WriteTo_length_witness :
    ∃ out n w1 sh, expert.WriteTo
        (exampleMember 0 :: (List.range 7).map (fun i => exampleMember (i + 1))) ⟨[], some 256⟩ =
        (w1, some (n, none)) ∧
      w1.data = (⟨[], some 256⟩ : Sink).data ++ out ∧
      out.length = 8 * [4, 4].prod * 2 ∧
      expert.Shape (exampleMember 0 :: (List.range 7).map (fun i => exampleMember (i + 1))) =
        some sh ∧
      out.length = 2 * sh.prod :=
  expert_WriteTo_length (exampleMember 0) ((List.range 7).map (fun i => exampleMember (i + 1)))
    ⟨[], some 256⟩ [4, 4] (by decide) (by decide) (by decide) (by decide)
    (fun k hk => by cases hk; decide)

theorem WriteTo_count_zero (e : expert) (w : Sink) (r : Int × Option String)
    (h : (expert.WriteTo e w).2 = some r) : r.1 = 0 := by
  cases e with
  | nil => simp [expert.WriteTo] at h
  | cons t0 ts =>
    simp only [expert.WriteTo] at h
    cases hl : stackLoop (t0.Shape.map toInt) (t0 :: ts) [] with
    | panic => rw [hl] at h; simp at h
    | fail err =>
      rw [hl] at h
      simp only [Option.some.injEq] at h
      rw [← h]
    | done stack =>
      rw [hl] at h
      cases stack with
      | nil => simp at h
      | cons s0 rest =>
        simp only [] at h
        cases hs : tensorStack 0 s0 rest with
        | error err =>
          rw [hs] at h
          simp only [Option.some.injEq] at h
          rw [← h]
        | ok stacked =>
          rw [hs] at h
          simp only [] at h
          cases hd : stacked.Data with
          | none => rw [hd] at h; simp at h
          | some data =>
            rw [hd] at h
            simp only [Option.some.injEq] at h
            rw [← h]

/-- C7, as stated, fails: a group of one member of shape `[1]` streaming two
bytes is written without error, two bytes reach the sink, and the returned
integer is 0, not 2. -/
theorem expert_WriteTo_count_counterexample :
    ¬ (∀ (t0 : Tensor) (ts : List Tensor) (w w1 : Sink) (n : Int),
      (∀ t ∈ t0 :: ts, t.readErr = none ∧ (∀ c ∈ t.chunks, c.length % 2 = 0) ∧
        t.bytes.length = 2 * t0.Shape.prod) →
      expert.WriteTo (t0 :: ts) w = (w1, some (n, none)) →
      n = (((t0 :: ts).length * t0.Shape.prod * 2 : Nat) : Int)) := by
  intro hall
  have h := hall ⟨[], 1, [1], [[1, 2]], none⟩ [] ⟨[], none⟩ ⟨[1, 2], none⟩ 0
    (by decide) (by decide)
  revert h
  decide

/-- C7, amended: when `WriteTo` succeeds, that is returns no error, the integer
it returns is 0; for a group of `N ≥ 1` members each streaming without error
and in buffers of even length `2 * numElements(S)` bytes, `S` being the shape of
the first and `numElements(S)` at least 1 and below `2^63`, it has then written
`N * numElements(S) * 2` bytes to the sink, which the returned integer does not
report. -/
theorem expert_WriteTo_count (e : expert) (w w1 : Sink) (n : Int)
    (hret : expert.WriteTo e w = (w1, some (n, none))) :
    n = 0 ∧
    ∀ t0 ts, e = t0 :: ts →
      (∀ t ∈ t0 :: ts, t.readErr = none ∧ (∀ c ∈ t.chunks, c.length % 2 = 0) ∧
        t.bytes.length = 2 * t0.Shape.prod) →
      0 < t0.Shape.prod → t0.Shape.prod < 9223372036854775808 →
      ∃ out, w1.data = w.data ++ out ∧
        out.length = (t0 :: ts).length * t0.Shape.prod * 2 := by
  constructor
  · exact WriteTo_count_zero e w (n, none) (by rw [hret])
  · intro t0 ts he h hpos hlt
    subst he
    rw [WriteTo_streams_eq t0 ts w hpos hlt h] at hret
    have h1 : (w.Write ((t0 :: ts).map Tensor.bytes).flatten).1 = w1 :=
      congrArg Prod.fst hret
    have h2 : (w.Write ((t0 :: ts).map Tensor.bytes).flatten).2.2 = none := by
      have := congrArg Prod.snd hret
      simp only [Option.some.injEq, Prod.mk.injEq] at this
      exact this.2
    refine ⟨_, ?_, flatten_bytes_length t0.Shape.prod (t0 :: ts) (fun t ht => (h t ht).2.2)⟩
    rw [← h1]
    exact Sink_Write_none w _ h2

/-- Witness of C7, amended: one member of shape `[1]` streaming two bytes to a
sink holding one byte. -/
theorem expert_WriteTo_count_witness :
    expert.WriteTo [⟨[], 1, [1], [[1, 2]], none⟩] ⟨[9], none⟩ =
      (⟨[9, 1, 2], none⟩, some (0, none)) ∧
    (0 : Int) = 0 ∧
    ∃ out, (⟨[9, 1, 2], none⟩ : Sink).data = (⟨[9], none⟩ : Sink).data ++ out ∧
      out.length = [(⟨[], 1, [1], [[1, 2]], none⟩ : Tensor)].length * [1].prod * 2 :=
  ⟨by decide,
   (expert_WriteTo_count [⟨[], 1, [1], [[1, 2]], none⟩] ⟨[9], none⟩ ⟨[9, 1, 2], none⟩ 0
      (by decide)).1,
   (expert_WriteTo_count [⟨[], 1, [1], [[1, 2]], none⟩] ⟨[9], none⟩ ⟨[9, 1, 2], none⟩ 0
      (by decide)).2 _ _ rfl (by decide) (by decide) (by decide)⟩

/-! ## Facts about decimal numerals -/

theorem toDigitsCore_append (b : Nat) (fuel n : Nat) (ds : List Char) :
    Nat.toDigitsCore b fuel n ds = Nat.toDigitsCore b fuel n [] ++ ds := by
  induction fuel generalizing n ds with
  | zero => simp [Nat.toDigitsCore]
  | succ f ih =>
    simp only [Nat.toDigitsCore]
    split
    · simp
    · rw [ih (n / b) (Nat.digitChar (n % b) :: ds), ih (n / b) [Nat.digitChar (n % b)]]
      simp

theorem toDigitsCore_fuel (f1 f2 n : Nat) (h1 : n < f1) (h2 : n < f2) :
    Nat.toDigitsCore 10 f1 n [] = Nat.toDigitsCore 10 f2 n [] := by
  induction f1 generalizing f2 n with
  | zero => omega
  | succ k ih =>
    cases f2 with
    | zero => omega
    | succ m =>
      simp only [Nat.toDigitsCore]
      split
      · rfl
      · rename_i hne
        rw [toDigitsCore_append 10 k, toDigitsCore_append 10 m,
          ih m (n / 10) (by omega) (by omega)]

theorem toDigits_small (n : Nat) (h : n < 10) : Nat.toDigits 10 n = [Nat.digitChar n] := by
  unfold Nat.toDigits
  simp only [Nat.toDigitsCore]
  rw [if_pos (by omega), Nat.mod_eq_of_lt h]

theorem toDigits_big (n : Nat) (h : 10 ≤ n) :
    Nat.toDigits 10 n = Nat.toDigits 10 (n / 10) ++ [Nat.digitChar (n % 10)] := by
  have e : Nat.toDigits 10 n = Nat.toDigitsCore 10 n (n / 10) [Nat.digitChar (n % 10)] := by
    unfold Nat.toDigits
    simp only [Nat.toDigitsCore]
    rw [if_neg (by omega)]
  rw [e, toDigitsCore_append 10 n,
    toDigitsCore_fuel n (n / 10 + 1) (n / 10) (by omega) (by omega)]
  rfl

theorem digitChar_isDigit (k : Nat) (h : k < 10) : (Nat.digitChar k).isDigit = true := by
  interval_cases k <;> decide

theorem digitChar_inj (a b : Nat) (ha : a < 10) (hb : b < 10)
    (h : Nat.digitChar a = Nat.digitChar b) : a = b := by
  interval_cases a <;> interval_cases b <;> first | rfl | (exact absurd h (by decide))

theorem toDigits_isDigit (n : Nat) : ∀ c ∈ Nat.toDigits 10 n, c.isDigit = true := by
  induction n using Nat.strong_induction_on with
  | _ n ih =>
    intro c hc
    by_cases h : n < 10
    · rw [toDigits_small n h, List.mem_singleton] at hc
      rw [hc]
      exact digitChar_isDigit n h
    · rw [toDigits_big n (by omega), List.mem_append, List.mem_singleton] at hc
      rcases hc with hc | hc
      · exact ih (n / 10) (by omega) c hc
      · rw [hc]
        exact digitChar_isDigit _ (Nat.mod_lt _ (by decide))

theorem toDigits_ne_nil (n : Nat) : Nat.toDigits 10 n ≠ [] := by
  by_cases h : n < 10
  · rw [toDigits_small n h]
    simp
  · rw [toDigits_big n (by omega)]
    simp

theorem toDigits_inj (n m : Nat) (h : Nat.toDigits 10 n = Nat.toDigits 10 m) : n = m := by
  induction n using Nat.strong_induction_on generalizing m with
  | _ n ih =>
    by_cases hn : n < 10
    · by_cases hm : m < 10
      · rw [toDigits_small n hn, toDigits_small m hm] at h
        exact digitChar_inj n m hn hm (List.singleton_inj.1 h)
      · rw [toDigits_small n hn, toDigits_big m (by omega)] at h
        have hl := congrArg List.length h
        have := List.length_pos.2 (toDigits_ne_nil (m / 10))
        simp only [List.length_append, List.length_singleton] at hl
        omega
    · by_cases hm : m < 10
      · rw [toDigits_big n (by omega), toDigits_small m hm] at h
        have hl := congrArg List.length h
        have := List.length_pos.2 (toDigits_ne_nil (n / 10))
        simp only [List.length_append, List.length_singleton] at hl
        omega
      · rw [toDigits_big n (by omega), toDigits_big m (by omega)] at h
        obtain ⟨h1, h2⟩ := List.append_inj' h rfl
        have e1 := ih (n / 10) (by omega) (m / 10) h1
        have e2 := digitChar_inj _ _ (Nat.mod_lt _ (by decide)) (Nat.mod_lt _ (by decide))
          (List.singleton_inj.1 h2)
        omega

/-! ## Facts about the name rewriter -/

theorem replaceFrom_skip (pairs : List (List Char × List Char)) (xs rest : List Char) :
    replaceFrom pairs xs.length (xs ++ rest) = replaceFrom pairs 0 rest := by
  induction xs with
  | nil => rfl
  | cons x xs ih => simpa [replaceFrom] using ih

theorem replaceFrom_match (pairs : List (List Char × List Char)) (old new rest : List Char)
    (hne : old ≠ []) (h : lookup pairs (old ++ rest) = some (old, new)) :
    replaceFrom pairs 0 (old ++ rest) = new ++ replaceFrom pairs 0 rest := by
  cases old with
  | nil => exact absurd rfl hne
  | cons c o =>
    rw [List.cons_append] at h ⊢
    rw [replaceFrom, h]
    simp only [List.length_cons, Nat.add_sub_cancel]
    rw [replaceFrom_skip]

theorem replaceFrom_none (pairs : List (List Char × List Char)) (c : Char) (cs : List Char)
    (h : lookup pairs (c :: cs) = none) :
    replaceFrom pairs 0 (c :: cs) = c :: replaceFrom pairs 0 cs := by
  rw [replaceFrom, h]

theorem expertOld_eq (j : Nat) :
    expertOld j = '.' :: 'b' :: ("lock_sparse_moe.experts.".toList ++ Nat.toDigits 10 j ++ ['.']) :=
  rfl

theorem lookup_none (N : Nat) (s : List Char)
    (h1 : "model.layers".toList.isPrefixOf s = false)
    (h2 : "w1".toList.isPrefixOf s = false) (h3 : "w2".toList.isPrefixOf s = false)
    (h4 : "w3".toList.isPrefixOf s = false)
    (hg : ∀ j, (expertOld j).isPrefixOf s = false) : lookup (oldnew N) s = none := by
  unfold lookup oldnew
  rw [List.find?_eq_none]
  intro p hp
  rw [List.mem_append] at hp
  rcases hp with hp | hp
  · simp only [List.mem_cons, List.mem_singleton, List.not_mem_nil, or_false] at hp
    rcases hp with rfl | rfl | rfl | rfl <;>
      simp only [h1, h2, h3, h4, Bool.false_eq_true, not_false_eq_true]
  · obtain ⟨j, _, rfl⟩ := List.mem_map.1 hp
    simp only [hg j, Bool.false_eq_true, not_false_eq_true]

theorem isPrefixOf_cons_ne (a c : Char) (l cs : List Char) (h : a ≠ c) :
    (a :: l).isPrefixOf (c :: cs) = false := by
  simp [List.isPrefixOf, h]

theorem lookup_other (N : Nat) (c : Char) (cs : List Char)
    (hm : c ≠ 'm') (hw : c ≠ 'w') (hd : c ≠ '.') : lookup (oldnew N) (c :: cs) = none := by
  apply lookup_none
  · exact isPrefixOf_cons_ne _ _ _ _ (Ne.symm hm)
  · exact isPrefixOf_cons_ne _ _ _ _ (Ne.symm hw)
  · exact isPrefixOf_cons_ne _ _ _ _ (Ne.symm hw)
  · exact isPrefixOf_cons_ne _ _ _ _ (Ne.symm hw)
  · intro j
    rw [expertOld_eq]
    exact isPrefixOf_cons_ne _ _ _ _ (Ne.symm hd)

theorem lookup_dot (N : Nat) (c : Char) (cs : List Char) (hb : c ≠ 'b') :
    lookup (oldnew N) ('.' :: c :: cs) = none := by
  apply lookup_none
  · exact isPrefixOf_cons_ne _ _ _ _ (by decide)
  · exact isPrefixOf_cons_ne _ _ _ _ (by decide)
  · exact isPrefixOf_cons_ne _ _ _ _ (by decide)
  · exact isPrefixOf_cons_ne _ _ _ _ (by decide)
  · intro j
    rw [expertOld_eq]
    simp [List.isPrefixOf, Ne.symm hb]

theorem lookup_w (N : Nat) (c : Char) (cs : List Char)
    (h1 : c ≠ '1') (h2 : c ≠ '2') (h3 : c ≠ '3') :
    lookup (oldnew N) ('w' :: c :: cs) = none := by
  apply lookup_none
  · exact isPrefixOf_cons_ne _ _ _ _ (by decide)
  · show ('w' :: ['1']).isPrefixOf _ = false
    simp [List.isPrefixOf, Ne.symm h1]
  · show ('w' :: ['2']).isPrefixOf _ = false
    simp [List.isPrefixOf, Ne.symm h2]
  · show ('w' :: ['3']).isPrefixOf _ = false
    simp [List.isPrefixOf, Ne.symm h3]
  · intro j
    rw [expertOld_eq]
    exact isPrefixOf_cons_ne _ _ _ _ (by decide)

theorem lookup_w1 (N : Nat) (cs : List Char) :
    lookup (oldnew N) ('w' :: '1' :: cs) = some ("w1".toList, "ffn_gate_exps".toList) := by
  simp [lookup, oldnew, List.find?_cons]

theorem lookup_w2 (N : Nat) (cs : List Char) :
    lookup (oldnew N) ('w' :: '2' :: cs) = some ("w2".toList, "ffn_down_exps".toList) := by
  simp [lookup, oldnew, List.find?_cons]

theorem lookup_w3 (N : Nat) (cs : List Char) :
    lookup (oldnew N) ('w' :: '3' :: cs) = some ("w3".toList, "ffn_up_exps".toList) := by
  simp [lookup, oldnew, List.find?_cons]

theorem lookup_model (N : Nat) (rest : List Char) :
    lookup (oldnew N) ("model.layers".toList ++ rest) =
      some ("model.layers".toList, "blk".toList) := by
  unfold lookup oldnew
  rw [List.cons_append, List.find?_cons_of_pos]
  exact List.isPrefixOf_iff_prefix.2 (List.prefix_append _ _)

theorem prefix_sep (a : Char) (xs ys r1 r2 : List Char) (hx : a ∉ xs) (hy : a ∉ ys)
    (h : xs ++ a :: r1 <+: ys ++ a :: r2) : xs = ys := by
  induction xs generalizing ys with
  | nil =>
    cases ys with
    | nil => rfl
    | cons y ys =>
      rw [List.nil_append, List.cons_append, List.cons_prefix_cons] at h
      exact absurd (h.1 ▸ List.mem_cons_self _ _) hy
  | cons x xs ih =>
    cases ys with
    | nil =>
      rw [List.nil_append, List.cons_append, List.cons_prefix_cons] at h
      exact absurd (h.1 ▸ List.mem_cons_self _ _) hx
    | cons y ys =>
      rw [List.cons_append, List.cons_append, List.cons_prefix_cons] at h
      rw [h.1, ih ys (fun hm => hx (List.mem_cons_of_mem _ hm))
        (fun hm => hy (List.mem_cons_of_mem _ hm)) h.2]

theorem dot_not_mem_toDigits (n : Nat) : '.' ∉ Nat.toDigits 10 n := by
  intro h
  exact absurd (toDigits_isDigit n _ h) (by decide)

theorem expertOld_isPrefixOf (j i : Nat) (rest : List Char) :
    (expertOld j).isPrefixOf (expertOld i ++ rest) = true ↔ j = i := by
  rw [List.isPrefixOf_iff_prefix]
  constructor
  · intro h
    unfold expertOld at h
    simp only [List.append_assoc, List.singleton_append, List.prefix_append_right_inj] at h
    rw [show [('.' : Char)] = '.' :: [] from rfl] at h
    exact toDigits_inj j i
      (prefix_sep '.' _ _ _ _ (dot_not_mem_toDigits j) (dot_not_mem_toDigits i) h)
  · rintro rfl
    exact List.prefix_append _ _

theorem find_map_range {β : Type} (f : Nat → β) (q : β → Bool) (N i : Nat) (hi : i < N)
    (h1 : q (f i) = true) (h2 : ∀ j, j < i → q (f j) = false) :
    ((List.range N).map f).find? q = some (f i) := by
  induction N with
  | zero => omega
  | succ N ih =>
    rw [List.range_succ, List.map_append, List.find?_append]
    by_cases hlt : i < N
    · rw [ih hlt]
      rfl
    · have hN : i = N := by omega
      subst hN
      have : ((List.range i).map f).find? q = none := by
        rw [List.find?_eq_none]
        intro x hx
        obtain ⟨j, hj, rfl⟩ := List.mem_map.1 hx
        rw [h2 j (List.mem_range.1 hj)]
        exact Bool.false_ne_true
      rw [this]
      simp [h1]

theorem lookup_expertOld (N i : Nat) (hi : i < N) (rest : List Char) :
    lookup (oldnew N) (expertOld i ++ rest) = some (expertOld i, ['.']) := by
  have hfix : List.find? (fun p => p.1.isPrefixOf (expertOld i ++ rest))
      [("model.layers".toList, "blk".toList), ("w1".toList, "ffn_gate_exps".toList),
       ("w2".toList, "ffn_down_exps".toList), ("w3".toList, "ffn_up_exps".toList)] = none := by
    rw [List.find?_eq_none]
    intro p hp
    simp only [List.mem_cons, List.mem_singleton, List.not_mem_nil, or_false] at hp
    rw [expertOld_eq, List.cons_append]
    rcases hp with rfl | rfl | rfl | rfl <;>
      simp only [isPrefixOf_cons_ne _ _ _ _ (show ('m' : Char) ≠ '.' by decide),
        isPrefixOf_cons_ne _ _ _ _ (show ('w' : Char) ≠ '.' by decide),
        show "model.layers".toList = 'm' :: "odel.layers".toList from rfl,
        show "w1".toList = 'w' :: ['1'] from rfl, show "w2".toList = 'w' :: ['2'] from rfl,
        show "w3".toList = 'w' :: ['3'] from rfl, Bool.false_eq_true, not_false_eq_true]
  unfold lookup oldnew
  rw [List.find?_append, hfix, Option.none_or]
  exact find_map_range (fun i => (expertOld i, ['.'])) _ N i hi
    ((expertOld_isPrefixOf i i rest).2 rfl)
    (fun j hj => by
      exact Bool.eq_false_iff.2 ((expertOld_isPrefixOf j i rest).not.2 (by omega)))

theorem expertOld_ne_nil (i : Nat) : expertOld i ≠ [] := by
  rw [expertOld_eq]
  exact List.cons_ne_nil _ _

theorem replaceFrom_copy (N : Nat) (xs rest : List Char)
    (h : ∀ c ∈ xs, c ≠ 'm' ∧ c ≠ 'w' ∧ c ≠ '.') :
    replaceFrom (oldnew N) 0 (xs ++ rest) = xs ++ replaceFrom (oldnew N) 0 rest := by
  induction xs with
  | nil => rfl
  | cons x xs ih =>
    obtain ⟨h1, h2, h3⟩ := h x (List.mem_cons_self _ _)
    rw [List.cons_append, replaceFrom_none _ _ _ (lookup_other N x _ h1 h2 h3),
      ih (fun c hc => h c (List.mem_cons_of_mem _ hc)), List.cons_append]

theorem isDigit_ne (c : Char) (h : c.isDigit = true) :
    c ≠ 'm' ∧ c ≠ 'w' ∧ c ≠ '.' ∧ c ≠ 'b' := by
  refine ⟨?_, ?_, ?_, ?_⟩ <;> (rintro rfl; revert h; decide)

theorem replaceFrom_weight (N : Nat) :
    replaceFrom (oldnew N) 0 ".weight".toList = ".weight".toList := by
  show replaceFrom (oldnew N) 0 ('.' :: 'w' :: 'e' :: ("ight".toList ++ [])) = _
  rw [replaceFrom_none _ _ _ (lookup_dot N _ _ (by decide)),
    replaceFrom_none _ _ _ (lookup_w N _ _ (by decide) (by decide) (by decide)),
    replaceFrom_none _ _ _ (lookup_other N _ _ (by decide) (by decide) (by decide)),
    replaceFrom_copy N _ _ (by decide)]
  rfl

/-- The rewriting of a per-expert name, up to the projection token: the layer
prefix becomes `blk`, the layer index is copied and the expert segment
collapses to a single separator. -/
theorem Replace_expert_name (N : Nat) (L : List Char) (i : Nat) (rest : List Char)
    (hL : ∀ c ∈ L, c.isDigit = true) (hi : i < N) :
    Replace (oldnew N) ("model.layers.".toList ++ L ++ ".block_sparse_moe.experts.".toList ++
        Nat.toDigits 10 i ++ '.' :: rest) =
      "blk.".toList ++ L ++ '.' :: replaceFrom (oldnew N) 0 rest := by
  have e : "model.layers.".toList ++ L ++ ".block_sparse_moe.experts.".toList ++
      Nat.toDigits 10 i ++ '.' :: rest =
      "model.layers".toList ++ ('.' :: (L ++ (expertOld i ++ rest))) := by
    rw [show "model.layers.".toList = "model.layers".toList ++ ['.'] from rfl]
    simp only [expertOld, marker, List.append_assoc, List.singleton_append, List.cons_append,
      List.nil_append]
  have hdot : lookup (oldnew N) ('.' :: (L ++ (expertOld i ++ rest))) = none := by
    cases L with
    | nil =>
      rw [List.nil_append, expertOld_eq, List.cons_append]
      exact lookup_dot N _ _ (by decide)
    | cons c L =>
      rw [List.cons_append]
      exact lookup_dot N _ _ (isDigit_ne c (hL c (List.mem_cons_self _ _))).2.2.2
  unfold Replace
  rw [e, replaceFrom_match _ _ _ _ (by decide) (lookup_model N _), replaceFrom_none _ _ _ hdot,
    replaceFrom_copy N L _ (fun c hc => ⟨(isDigit_ne c (hL c hc)).1, (isDigit_ne c (hL c hc)).2.1,
      (isDigit_ne c (hL c hc)).2.2.1⟩),
    replaceFrom_match _ _ _ _ (expertOld_ne_nil i) (lookup_expertOld N i hi rest)]
  rw [show "blk.".toList = "blk".toList ++ ['.'] from rfl]
  simp only [List.append_assoc, List.singleton_append, List.cons_append, List.nil_append]

/-- C3: for every layer numeral `L`, every expert index `i` below
`NumLocalExperts` and every projection token, the rewriter maps
`model.layers.L.block_sparse_moe.experts.i.wK.weight` to
`blk.L.ffn_gate_exps.weight` (w1), `blk.L.ffn_down_exps.weight` (w2) and
`blk.L.ffn_up_exps.weight` (w3); the result does not depend on `i`. -/
theorem namer_expert_names (N : Nat) (L : List Char) (i : Nat)
    (hL : ∀ c ∈ L, c.isDigit = true) (hi : i < N) :
    Replace (oldnew N) ("model.layers.".toList ++ L ++ ".block_sparse_moe.experts.".toList ++
        Nat.toDigits 10 i ++ ".w1.weight".toList) =
      "blk.".toList ++ L ++ ".ffn_gate_exps.weight".toList ∧
    Replace (oldnew N) ("model.layers.".toList ++ L ++ ".block_sparse_moe.experts.".toList ++
        Nat.toDigits 10 i ++ ".w2.weight".toList) =
      "blk.".toList ++ L ++ ".ffn_down_exps.weight".toList ∧
    Replace (oldnew N) ("model.layers.".toList ++ L ++ ".block_sparse_moe.experts.".toList ++
        Nat.toDigits 10 i ++ ".w3.weight".toList) =
      "blk.".toList ++ L ++ ".ffn_up_exps.weight".toList := by
  refine ⟨?_, ?_, ?_⟩
  · rw [show ".w1.weight".toList = '.' :: ("w1".toList ++ ".weight".toList) from rfl,
      Replace_expert_name N L i _ hL hi,
      replaceFrom_match _ _ _ _ (by decide) (lookup_w1 N _), replaceFrom_weight]
    rfl
  · rw [show ".w2.weight".toList = '.' :: ("w2".toList ++ ".weight".toList) from rfl,
      Replace_expert_name N L i _ hL hi,
      replaceFrom_match _ _ _ _ (by decide) (lookup_w2 N _), replaceFrom_weight]
    rfl
  · rw [show ".w3.weight".toList = '.' :: ("w3".toList ++ ".weight".toList) from rfl,
      Replace_expert_name N L i _ hL hi,
      replaceFrom_match _ _ _ _ (by decide) (lookup_w3 N _), replaceFrom_weight]
    rfl

/-- Witness of C3: with `NumLocalExperts = 8`, the name of expert 7 of layer 0
maps to `blk.0.ffn_gate_exps.weight`, as do the names of the experts 0 to 7. -/
theorem namer_expert_names_witness :
    Replace (oldnew 8) ("model.layers.".toList ++ ['0'] ++ ".block_sparse_moe.experts.".toList ++
        Nat.toDigits 10 7 ++ ".w1.weight".toList) =
      "blk.".toList ++ ['0'] ++ ".ffn_gate_exps.weight".toList ∧
    exampleGroup.map (fun t => Replace (oldnew 8) t.Name) =
      List.replicate 8 "blk.0.ffn_gate_exps.weight".toList :=
  ⟨(namer_expert_names 8 ['0'] 7 (by decide) (by decide)).1, by decide⟩

/-! ## Facts about the partition of `mixtral.Tensors` -/

theorem contains_iff (sub s : List Char) : contains sub s = true ↔ sub <:+: s := by
  induction s with
  | nil =>
    rw [contains, List.isPrefixOf_iff_prefix, List.prefix_nil, List.infix_nil]
  | cons c cs ih =>
    rw [contains, Bool.or_eq_true, List.isPrefixOf_iff_prefix, ih, List.infix_cons_iff]

theorem mapGet_mapSet (m : Experts) (n k : List Char) (e : expert) :
    mapGet (mapSet m n e) k = if k = n then e else mapGet m k := by
  induction m with
  | nil =>
    by_cases h : k = n
    · simp [mapSet, mapGet, h]
    · simp [mapSet, mapGet, h, Ne.symm h]
  | cons x m ih =>
    obtain ⟨k0, e0⟩ := x
    by_cases h0 : k0 = n
    · by_cases h : k = n
      · simp [mapSet, mapGet, h0, h]
      · simp [mapSet, mapGet, h0, h, Ne.symm h]
    · by_cases h : k0 = k
      · have hkn : k ≠ n := fun hh => h0 (h.trans hh)
        simp [mapSet, mapGet, h0, h, hkn]
      · simp [mapSet, mapGet, h0, h, ih]

theorem keys_mapSet (m : Experts) (n : List Char) (e : expert) :
    (mapSet m n e).map Prod.fst =
      if n ∈ m.map Prod.fst then m.map Prod.fst else m.map Prod.fst ++ [n] := by
  induction m with
  | nil => simp [mapSet]
  | cons x m ih =>
    obtain ⟨k0, e0⟩ := x
    by_cases h0 : k0 = n
    · simp [mapSet, h0]
    · have : n ≠ k0 := Ne.symm h0
      by_cases hm : n ∈ m.map Prod.fst
      · simp only [mapSet, h0, if_false, List.map_cons, ih, hm, if_true, List.mem_cons, or_true]
      · simp only [mapSet, h0, if_false, List.map_cons, ih, hm, List.mem_cons, this, or_self,
          List.cons_append]

theorem mapGet_of_mem (m : Experts) (n : List Char) (e : expert)
    (hnd : (m.map Prod.fst).Nodup) (h : (n, e) ∈ m) : mapGet m n = e := by
  induction m with
  | nil => simp at h
  | cons x m ih =>
    obtain ⟨k0, e0⟩ := x
    rw [List.map_cons, List.nodup_cons] at hnd
    rcases List.mem_cons.1 h with h1 | h1
    · cases h1
      simp [mapGet]
    · have hk : k0 ≠ n := by
        rintro rfl
        exact hnd.1 (List.mem_map.2 ⟨(k0, e), h1, rfl⟩)
      simp [mapGet, hk, ih hnd.2 h1]

theorem MapInv_step (namer : List (List Char × List Char)) (m : Experts) (seen : List Tensor)
    (t : Tensor) (h : MapInv namer m seen) :
    MapInv namer (del namer m t).2 (seen ++ [t]) ∧
      (del namer m t).1 = contains marker t.Name := by
  obtain ⟨h1, h2, h3⟩ := h
  by_cases hc : contains marker t.Name = true
  · have hdel : del namer m t =
        (true, mapSet m (Replace namer t.Name) (mapGet m (Replace namer t.Name) ++ [t])) := by
      simp [del, hc]
    rw [hdel]
    refine ⟨⟨?_, ?_, ?_⟩, hc.symm⟩
    · rw [keys_mapSet]
      split
      · exact h1
      · rename_i hn
        exact List.Nodup.append h1 (List.nodup_singleton _) (by simpa using hn)
    · intro n
      rw [mapGet_mapSet, List.filter_append]
      by_cases hn : n = Replace namer t.Name
      · subst hn
        rw [if_pos rfl, h2]
        simp [List.filter_cons, inGroup, hc]
      · rw [if_neg hn, h2]
        simp [List.filter_cons, inGroup, hc, Ne.symm hn]
    · intro n
      rw [keys_mapSet]
      by_cases hn : n = Replace namer t.Name
      · subst hn
        have hin : inGroup namer (Replace namer t.Name) t = true := by simp [inGroup, hc]
        constructor
        · intro _
          exact ⟨t, by simp, hin⟩
        · intro _
          split
          · assumption
          · simp
      · have hin : inGroup namer n t = false := by simp [inGroup, Ne.symm hn]
        have e1 : n ∈ (if Replace namer t.Name ∈ m.map Prod.fst then m.map Prod.fst
            else m.map Prod.fst ++ [Replace namer t.Name]) ↔ n ∈ m.map Prod.fst := by
          split
          · rfl
          · simp [hn]
        rw [e1, h3]
        constructor
        · rintro ⟨x, hx, hg⟩
          exact ⟨x, List.mem_append_left _ hx, hg⟩
        · rintro ⟨x, hx, hg⟩
          rcases List.mem_append.1 hx with hx | hx
          · exact ⟨x, hx, hg⟩
          · rw [List.mem_singleton.1 hx, hin] at hg
            exact absurd hg Bool.false_ne_true
  · have hc1 : contains marker t.Name = false := by simpa using hc
    have hdel : del namer m t = (false, m) := by simp [del, hc1]
    have hin : ∀ n, inGroup namer n t = false := by intro n; simp [inGroup, hc1]
    rw [hdel]
    refine ⟨⟨h1, ?_, ?_⟩, hc1.symm⟩
    · intro n
      rw [h2, List.filter_append]
      simp [List.filter_cons, hin]
    · intro n
      rw [h3]
      constructor
      · rintro ⟨x, hx, hg⟩
        exact ⟨x, List.mem_append_left _ hx, hg⟩
      · rintro ⟨x, hx, hg⟩
        rcases List.mem_append.1 hx with hx | hx
        · exact ⟨x, hx, hg⟩
        · rw [List.mem_singleton.1 hx, hin] at hg
          exact absurd hg Bool.false_ne_true

theorem DeleteFunc_del (namer : List (List Char × List Char)) (ts seen : List Tensor)
    (m : Experts) (h : MapInv namer m seen) :
    (DeleteFunc (del namer) ts m).1 = ts.filter (fun t => !contains marker t.Name) ∧
      MapInv namer (DeleteFunc (del namer) ts m).2 (seen ++ ts) := by
  induction ts generalizing seen m with
  | nil => simpa [DeleteFunc] using h
  | cons t ts ih =>
    obtain ⟨hinv, hb⟩ := MapInv_step namer m seen t h
    have := ih (seen ++ [t]) (del namer m t).2 hinv
    rw [List.append_assoc, List.singleton_append] at this
    rw [DeleteFunc]
    rcases hd : del namer m t with ⟨b, m1⟩
    rw [hd] at this hb
    simp only at this hb
    cases b with
    | true => simpa [List.filter_cons, ← hb] using this
    | false => simpa [List.filter_cons, ← hb] using this

theorem MapInv_nil (namer : List (List Char × List Char)) : MapInv namer [] [] := by
  refine ⟨List.nodup_nil, fun n => rfl, fun n => ?_⟩
  simp

theorem emitLoop_ok (l : Experts) (out : List llm.Tensor) (h : ∀ x ∈ l, x.2 ≠ []) :
    ∃ merged, emitLoop l out = some (out ++ merged) ∧
      merged.map llm.Tensor.Name = l.map Prod.fst ∧
      ∀ o ∈ merged, ∃ e, (o.Name, e) ∈ l ∧ expert.Kind e = some o.Kind ∧
        expert.Shape e = some o.Shape ∧ o.WriterTo = .group e := by
  induction l generalizing out with
  | nil => exact ⟨[], by simp [emitLoop], rfl, by simp⟩
  | cons x l ih =>
    obtain ⟨n, e⟩ := x
    have hne : e ≠ [] := h (n, e) (List.mem_cons_self _ _)
    cases e with
    | nil => exact absurd rfl hne
    | cons t e =>
      obtain ⟨merged, h1, h2, h3⟩ :=
        ih (out ++ [⟨n, t.Kind, (t :: e).length :: t.Shape, .group (t :: e)⟩])
          (fun x hx => h x (List.mem_cons_of_mem _ hx))
      refine ⟨⟨n, t.Kind, (t :: e).length :: t.Shape, .group (t :: e)⟩ :: merged, ?_, ?_, ?_⟩
      · simp only [emitLoop, expert.Kind, expert.Shape, h1, List.append_assoc,
          List.singleton_append]
      · simp [h2]
      · intro o ho
        rcases List.mem_cons.1 ho with rfl | ho
        · exact ⟨t :: e, List.mem_cons_self _ _, rfl, rfl, rfl⟩
        · obtain ⟨e1, hm, hk⟩ := h3 o ho
          exact ⟨e1, List.mem_cons_of_mem _ hm, hk⟩

/-- The result of `mixtral.Tensors` in terms of the partition: the merged
tensors, one per entry of the map in the order of the iteration, followed by the
output of the base extractor on the kept tensors. -/
theorem Tensors_spec (p : mixtral) (rangeMap : Experts → Experts) (ts : List Tensor)
    (hperm : ∀ m, (rangeMap m).Perm m) :
    ∃ merged, (∀ base, p.Tensors base rangeMap ts = some (merged ++
        base (ts.filter (fun t => !contains marker t.Name)))) ∧
      (merged.map llm.Tensor.Name).Nodup ∧
      (∀ n, n ∈ merged.map llm.Tensor.Name ↔
        ∃ t ∈ ts, inGroup (oldnew p.NumLocalExperts) n t = true) ∧
      ∀ o ∈ merged, ∃ e : expert,
        e = ts.filter (inGroup (oldnew p.NumLocalExperts) o.Name) ∧ e ≠ [] ∧
        expert.Kind e = some o.Kind ∧ expert.Shape e = some o.Shape ∧ o.WriterTo = .group e := by
  obtain ⟨hkept, hnd, hget, hkeys⟩ :=
    DeleteFunc_del (oldnew p.NumLocalExperts) ts [] [] (MapInv_nil _)
  rw [List.nil_append] at hget hkeys
  set r := DeleteFunc (del (oldnew p.NumLocalExperts)) ts [] with hr
  have hP := hperm r.2
  have hgrp : ∀ n e, (n, e) ∈ r.2 →
      e = ts.filter (inGroup (oldnew p.NumLocalExperts) n) ∧ e ≠ [] := by
    intro n e hm
    have h1 := mapGet_of_mem r.2 n e hnd hm
    rw [hget] at h1
    refine ⟨h1.symm, ?_⟩
    obtain ⟨t, ht, hg⟩ := (hkeys n).1 (List.mem_map.2 ⟨(n, e), hm, rfl⟩)
    rw [← h1]
    exact List.ne_nil_of_mem (List.mem_filter.2 ⟨ht, hg⟩)
  obtain ⟨merged, h1, h2, h3⟩ := emitLoop_ok (rangeMap r.2) []
    (fun x hx => (hgrp x.1 x.2 (hP.mem_iff.1 hx)).2)
  refine ⟨merged, ?_, ?_, ?_, ?_⟩
  · intro base
    simp only [mixtral.Tensors, ← hr, h1, List.nil_append, hkept]
  · rw [h2]
    exact (hP.map Prod.fst).nodup_iff.2 hnd
  · intro n
    rw [h2, (hP.map Prod.fst).mem_iff]
    exact hkeys n
  · intro o ho
    obtain ⟨e, hm, hk, hs, hw⟩ := h3 o ho
    obtain ⟨g1, g2⟩ := hgrp o.Name e (hP.mem_iff.1 hm)
    exact ⟨e, g1, g2, hk, hs, hw⟩

/-- C4: the list `mixtral.Tensors` hands to the base extractor is the list of
the input tensors whose name does not contain the marker
`.block_sparse_moe.experts.`, each as it was and in the input order; an input
tensor is in that list if and only if its name does not contain the marker. -/
theorem mixtral_Tensors_passthrough (p : mixtral) (rangeMap : Experts → Experts)
    (ts : List Tensor) (hperm : ∀ m, (rangeMap m).Perm m) :
    ∃ merged kept, (∀ base, p.Tensors base rangeMap ts = some (merged ++ base kept)) ∧
      kept = (DeleteFunc (del (oldnew p.NumLocalExperts)) ts []).1 ∧
      kept = ts.filter (fun t => !contains marker t.Name) ∧
      kept.Sublist ts ∧
      ∀ t ∈ ts, (t ∈ kept ↔ ¬ ".block_sparse_moe.experts.".toList <:+: t.Name) := by
  obtain ⟨merged, h1, _⟩ := Tensors_spec p rangeMap ts hperm
  refine ⟨merged, _, h1, ?_, rfl, List.filter_sublist _, ?_⟩
  · exact (DeleteFunc_del (oldnew p.NumLocalExperts) ts [] [] (MapInv_nil _)).1.symm
  · intro t ht
    rw [List.mem_filter, ← contains_iff]
    simp [ht, marker]

/-- Witness of C4: a tensor that is no expert tensor, before and after the
eight expert tensors of the end-to-end example. -/
theorem mixtral_Tensors_passthrough_witness :
    ∃ merged kept, (∀ base, mixtral.Tensors ⟨8, 2⟩ base id
        (exampleOther :: exampleGroup ++ [exampleOther]) = some (merged ++ base kept)) ∧
      kept = (DeleteFunc (del (oldnew (mixtral.mk 8 2).NumLocalExperts))
        (exampleOther :: exampleGroup ++ [exampleOther]) []).1 ∧
      kept = (exampleOther :: exampleGroup ++ [exampleOther]).filter
        (fun t => !contains marker t.Name) ∧
      kept.Sublist (exampleOther :: exampleGroup ++ [exampleOther]) ∧
      ∀ t ∈ exampleOther :: exampleGroup ++ [exampleOther],
        (t ∈ kept ↔ ¬ ".block_sparse_moe.experts.".toList <:+: t.Name) :=
  mixtral_Tensors_passthrough ⟨8, 2⟩ id (exampleOther :: exampleGroup ++ [exampleOther])
    (fun m => List.Perm.refl m)

/-- C5: the result of `mixtral.Tensors` is the merged tensors followed by the
output of the base extractor for the kept tensors; the merged tensors have
distinct names, which are the destination names of the expert tensors of the
input; each carries the kind and the shape of its group, the list of the input
tensors routed to its name, and that group as its data source. -/
theorem mixtral_Tensors_merged (p : mixtral) (rangeMap : Experts → Experts)
    (ts : List Tensor) (hperm : ∀ m, (rangeMap m).Perm m) :
    ∃ merged, (∀ base, p.Tensors base rangeMap ts = some (merged ++
        base (DeleteFunc (del (oldnew p.NumLocalExperts)) ts []).1)) ∧
      (merged.map llm.Tensor.Name).Nodup ∧
      (∀ n, n ∈ merged.map llm.Tensor.Name ↔
        ∃ t ∈ ts, contains marker t.Name = true ∧ Replace (oldnew p.NumLocalExperts) t.Name = n) ∧
      ∀ o ∈ merged, ∃ e : expert,
        e = ts.filter (fun t => contains marker t.Name &&
          decide (Replace (oldnew p.NumLocalExperts) t.Name = o.Name)) ∧
        e ≠ [] ∧ mapGet (DeleteFunc (del (oldnew p.NumLocalExperts)) ts []).2 o.Name = e ∧
        expert.Kind e = some o.Kind ∧ expert.Shape e = some o.Shape ∧ o.WriterTo = .group e := by
  obtain ⟨merged, h1, h2, h3, h4⟩ := Tensors_spec p rangeMap ts hperm
  obtain ⟨hkept, _, hget, _⟩ :=
    DeleteFunc_del (oldnew p.NumLocalExperts) ts [] [] (MapInv_nil _)
  refine ⟨merged, ?_, h2, ?_, ?_⟩
  · rw [hkept]
    exact h1
  · intro n
    rw [h3]
    simp [inGroup]
  · intro o ho
    obtain ⟨e, g1, g2, g3, g4, g5⟩ := h4 o ho
    refine ⟨e, g1, g2, ?_, g3, g4, g5⟩
    rw [hget, g1]
    rfl

/-- Witness of C5: the eight tensors of the end-to-end example give one merged
tensor, of shape `[8,4,4]`. -/
theorem mixtral_Tensors_merged_witness :
    (∃ merged, (∀ base, mixtral.Tensors ⟨8, 2⟩ base id exampleGroup = some (merged ++
        base (DeleteFunc (del (oldnew (mixtral.mk 8 2).NumLocalExperts)) exampleGroup []).1)) ∧
      (merged.map llm.Tensor.Name).Nodup ∧
      (∀ n, n ∈ merged.map llm.Tensor.Name ↔
        ∃ t ∈ exampleGroup, contains marker t.Name = true ∧
          Replace (oldnew (mixtral.mk 8 2).NumLocalExperts) t.Name = n) ∧
      ∀ o ∈ merged, ∃ e : expert,
        e = exampleGroup.filter (fun t => contains marker t.Name &&
          decide (Replace (oldnew (mixtral.mk 8 2).NumLocalExperts) t.Name = o.Name)) ∧
        e ≠ [] ∧
        mapGet (DeleteFunc (del (oldnew (mixtral.mk 8 2).NumLocalExperts)) exampleGroup []).2
          o.Name = e ∧
        expert.Kind e = some o.Kind ∧ expert.Shape e = some o.Shape ∧ o.WriterTo = .group e) ∧
    mixtral.Tensors ⟨8, 2⟩ (fun _ => []) id exampleGroup =
      some [⟨"blk.0.ffn_gate_exps.weight".toList, 1, [8, 4, 4], .group exampleGroup⟩] :=
  ⟨mixtral_Tensors_merged ⟨8, 2⟩ id exampleGroup (fun m => List.Perm.refl m), by decide⟩

/-- C10: on a base map holding neither key, the map returned by `KV` holds
`llama.expert_count` if and only if `NumLocalExperts > 0`, then with that value,
and `llama.expert_used_count` if and only if `NumExpertsPerToken > 0`, then with
that value; every other key has the value the base map gave it. -/
theorem mixtral_KV_keys (p : mixtral) (kv : KVMap)
    (h1 : kv "llama.expert_count" = none) (h2 : kv "llama.expert_used_count" = none) :
    ((p.KV kv "llama.expert_count").isSome = true ↔ p.NumLocalExperts > 0) ∧
    (p.NumLocalExperts > 0 →
      p.KV kv "llama.expert_count" = some (.uint32 p.NumLocalExperts)) ∧
    ((p.KV kv "llama.expert_used_count").isSome = true ↔ p.NumExpertsPerToken > 0) ∧
    (p.NumExpertsPerToken > 0 →
      p.KV kv "llama.expert_used_count" = some (.uint32 p.NumExpertsPerToken)) ∧
    ∀ k, k ≠ "llama.expert_count" → k ≠ "llama.expert_used_count" → p.KV kv k = kv k := by
  have hne : ("llama.expert_count" : String) ≠ "llama.expert_used_count" := by decide
  refine ⟨?_, ?_, ?_, ?_, ?_⟩
  · by_cases a : p.NumLocalExperts > 0 <;> by_cases b : p.NumExpertsPerToken > 0 <;>
      simp [mixtral.KV, KVMap.set, a, b, h1, hne]
  · intro a
    by_cases b : p.NumExpertsPerToken > 0 <;> simp [mixtral.KV, KVMap.set, a, b, hne]
  · by_cases a : p.NumLocalExperts > 0 <;> by_cases b : p.NumExpertsPerToken > 0 <;>
      simp [mixtral.KV, KVMap.set, a, b, h2, Ne.symm hne]
  · intro b
    by_cases a : p.NumLocalExperts > 0 <;> simp [mixtral.KV, KVMap.set, a, b]
  · intro k k1 k2
    by_cases a : p.NumLocalExperts > 0 <;> by_cases b : p.NumExpertsPerToken > 0 <;>
      simp [mixtral.KV, KVMap.set, a, b, k1, k2]

/-- Witness of C10: 8 experts and 2 experts per token over a base map holding
one other key. -/
theorem mixtral_KV_keys_witness :
    mixtral.KV ⟨8, 2⟩ (fun k => if k = "general.architecture" then some (.other "llama") else none)
        "llama.expert_count" = some (.uint32 8) ∧
    mixtral.KV ⟨8, 2⟩ (fun k => if k = "general.architecture" then some (.other "llama") else none)
        "llama.expert_used_count" = some (.uint32 2) :=
  ⟨(mixtral_KV_keys ⟨8, 2⟩ _ (by decide) (by decide)).2.1 (by decide),
   (mixtral_KV_keys ⟨8, 2⟩ _ (by decide) (by decide)).2.2.2.1 (by decide)⟩

/-! ## Further facts about `mixtral.KV` and the accumulator -/

/-- C11, as stated, fails: with `NumLocalExperts = 0` and
`NumExpertsPerToken = 2` over the empty base map, the returned map holds
`llama.expert_used_count`. -/
theorem mixtral_KV_zero_experts_counterexample :
    (fun _ => none : KVMap) "llama.expert_count" = none ∧
    (fun _ => none : KVMap) "llama.expert_used_count" = none ∧
    mixtral.KV ⟨0, 2⟩ (fun _ => none) "llama.expert_used_count" = some (.uint32 2) := by
  decide

/-- C11, amended: when `NumLocalExperts = 0`, on a base map holding neither key,
the returned map does not hold `llama.expert_count`; it holds
`llama.expert_used_count` if and only if `NumExpertsPerToken > 0`, then with the
value `NumExpertsPerToken`, so that neither key is present when both fields are
0; every other key has the value the base map gave it. -/
theorem mixtral_KV_zero_experts (p : mixtral) (kv : KVMap) (h0 : p.NumLocalExperts = 0)
    (h1 : kv "llama.expert_count" = none) (h2 : kv "llama.expert_used_count" = none) :
    p.KV kv "llama.expert_count" = none ∧
    (p.KV kv "llama.expert_used_count" ≠ none ↔ p.NumExpertsPerToken > 0) ∧
    (p.NumExpertsPerToken > 0 →
      p.KV kv "llama.expert_used_count" = some (.uint32 p.NumExpertsPerToken)) ∧
    (p.NumExpertsPerToken = 0 → p.KV kv "llama.expert_used_count" = none) ∧
    ∀ k, k ≠ "llama.expert_count" → k ≠ "llama.expert_used_count" → p.KV kv k = kv k := by
  have hne : ("llama.expert_count" : String) ≠ "llama.expert_used_count" := by decide
  refine ⟨?_, ?_, ?_, ?_, ?_⟩
  · by_cases b : p.NumExpertsPerToken > 0 <;> simp [mixtral.KV, KVMap.set, h0, b, h1, hne]
  · by_cases b : p.NumExpertsPerToken > 0 <;> simp [mixtral.KV, KVMap.set, h0, b, h2]
  · intro b
    simp [mixtral.KV, KVMap.set, h0, b]
  · intro b
    simp [mixtral.KV, KVMap.set, h0, b, h2]
  · intro k k1 k2
    by_cases b : p.NumExpertsPerToken > 0 <;> simp [mixtral.KV, KVMap.set, h0, b, k1, k2]

/-- Witness of C11, amended: no expert and 2 experts per token over a base map
holding one other key. -/
theorem mixtral_KV_zero_experts_witness :
    mixtral.KV ⟨0, 2⟩ (fun k => if k = "general.architecture" then some (.other "llama") else none)
        "llama.expert_count" = none ∧
    mixtral.KV ⟨0, 2⟩ (fun k => if k = "general.architecture" then some (.other "llama") else none)
        "llama.expert_used_count" = some (.uint32 2) ∧
    mixtral.KV ⟨0, 2⟩ (fun k => if k = "general.architecture" then some (.other "llama") else none)
        "general.architecture" = some (.other "llama") :=
  ⟨(mixtral_KV_zero_experts ⟨0, 2⟩ _ rfl (by decide) (by decide)).1,
   (mixtral_KV_zero_experts ⟨0, 2⟩ _ rfl (by decide) (by decide)).2.2.1 (by decide),
   ((mixtral_KV_zero_experts ⟨0, 2⟩ _ rfl (by decide) (by decide)).2.2.2.2
      "general.architecture" (by decide) (by decide)).trans (by decide)⟩

/-- C20: two writes of buffers of even length leave the accumulator that one
write of their concatenation leaves, none of the writes failing, so a tensor
streamed in buffers of even length is decoded as one streamed in a single
buffer; and some buffer of even length cut into two buffers of odd length is
refused when written in the two pieces although accepted in one. -/
theorem uint16s_Write_chunks (u : uint16s) (p q : List Byte)
    (hp : p.length % 2 = 0) (hq : q.length % 2 = 0) :
    ((u.Write p).1.Write q).1 = (u.Write (p ++ q)).1 ∧
    (u.Write p).2.2 = none ∧ ((u.Write p).1.Write q).2.2 = none ∧
    (u.Write (p ++ q)).2.2 = none ∧
    feed [p, q] u = feed [p ++ q] u ∧
    ∃ a b : List Byte, (a ++ b).length % 2 = 0 ∧
      (uint16s.Write ⟨[]⟩ (a ++ b)).2.2 = none ∧ (uint16s.Write ⟨[]⟩ a).2.2 ≠ none ∧
      (feed [a, b] ⟨[]⟩).2 ≠ none ∧ (feed [a ++ b] ⟨[]⟩).2 = none := by
  have hpq : (p ++ q).length % 2 = 0 := by
    rw [List.length_append]
    omega
  have e1 : ((u.Write p).1.Write q).1 = (u.Write (p ++ q)).1 := by
    rw [Write_even u p hp, Write_even _ q hq, Write_even u _ hpq, pairsLE_append p q hp,
      List.append_assoc]
  refine ⟨e1, ?_, ?_, ?_, ?_, ?_⟩
  · rw [Write_even u p hp]
  · rw [Write_even u p hp, Write_even _ q hq]
  · rw [Write_even u _ hpq]
  · rw [feed_even [p, q] u (by simpa using ⟨hp, hq⟩),
      feed_even [p ++ q] u (by simpa using hpq)]
    simp
  · exact ⟨[1], [2], by decide, by decide, by decide, by decide, by decide⟩

/-- Witness of C20: the buffers `[1, 2]` and `[3, 4, 5, 6]`. -/
theorem uint16s_Write_chunks_witness :
    ((uint16s.Write ⟨[7]⟩ [1, 2]).1.Write [3, 4, 5, 6]).1 =
      (uint16s.Write ⟨[7]⟩ ([1, 2] ++ [3, 4, 5, 6])).1 :=
  (uint16s_Write_chunks ⟨[7]⟩ [1, 2] [3, 4, 5, 6] (by decide) (by decide)).1

/-! ## Errors of the members in `expert.WriteTo` -/

theorem feed_odd (cs : List (List Byte)) (u : uint16s) (h : ∃ c ∈ cs, c.length % 2 = 1) :
    ∃ u1, feed cs u = (u1, some "odd length") := by
  induction cs generalizing u with
  | nil =>
    obtain ⟨c, hc, _⟩ := h
    simp at hc
  | cons c cs ih =>
    rcases Nat.mod_two_eq_zero_or_one c.length with h0 | h1
    · have hrest : ∃ x ∈ cs, x.length % 2 = 1 := by
        obtain ⟨x, hx, hodd⟩ := h
        rcases List.mem_cons.1 hx with rfl | hx
        · omega
        · exact ⟨x, hx, hodd⟩
      obtain ⟨u1, hu1⟩ := ih ⟨u.b ++ pairsLE c⟩ hrest
      exact ⟨u1, by simp only [feed, Write_even u c h0, hu1]⟩
    · exact ⟨u, by simp only [feed, Write_odd u c h1]⟩

theorem WriteTo_fails (t : Tensor) (u : uint16s) (h : Fails t) :
    ∃ err, (t.WriteTo u).2 = some err := by
  by_cases hodd : ∃ c ∈ t.chunks, c.length % 2 = 1
  · obtain ⟨u1, hu1⟩ := feed_odd t.chunks u hodd
    exact ⟨"odd length", by simp only [Tensor.WriteTo, hu1]⟩
  · have hev : ∀ c ∈ t.chunks, c.length % 2 = 0 := by
      intro c hc
      rcases Nat.mod_two_eq_zero_or_one c.length with h0 | h1
      · exact h0
      · exact absurd ⟨c, hc, h1⟩ hodd
    have hr : t.readErr ≠ none := by
      rcases h with h | h
      · exact h
      · exact absurd h hodd
    obtain ⟨err, herr⟩ := Option.ne_none_iff_exists'.1 hr
    exact ⟨err, by simp only [Tensor.WriteTo, feed_even t.chunks u hev, herr]⟩

theorem stackLoop_fails (dims : List Int) (e : List Tensor) (stack : List Dense)
    (h : ∃ t ∈ e, Fails t) :
    stackLoop dims e stack = .panic ∨ ∃ err, stackLoop dims e stack = .fail err := by
  induction e generalizing stack with
  | nil =>
    obtain ⟨t, ht, _⟩ := h
    simp at ht
  | cons t ts ih =>
    rw [stackLoop]
    rcases hw : t.WriteTo ⟨[]⟩ with ⟨b, _ | err⟩
    · have hts : ∃ x ∈ ts, Fails x := by
        obtain ⟨x, hx, hf⟩ := h
        rcases List.mem_cons.1 hx with rfl | hx
        · obtain ⟨err, herr⟩ := WriteTo_fails x ⟨[]⟩ hf
          rw [hw] at herr
          exact absurd herr (by simp)
        · exact ⟨x, hx, hf⟩
      simp only []
      cases tensorNew dims b.Bits with
      | none => exact Or.inl rfl
      | some d => exact ih _ hts
    · exact Or.inr ⟨err, rfl⟩

theorem stackLoop_first_fail (dims : List Int) (pre : List Tensor) (t : Tensor)
    (post : List Tensor) (stack : List Dense) (err : String)
    (hpre : ∀ x ∈ pre, (x.WriteTo ⟨[]⟩).2 = none ∧
      tensorNew dims (x.WriteTo ⟨[]⟩).1.Bits ≠ none)
    (ht : (t.WriteTo ⟨[]⟩).2 = some err) :
    stackLoop dims (pre ++ t :: post) stack = .fail err := by
  induction pre generalizing stack with
  | nil =>
    rw [List.nil_append, stackLoop]
    rcases hw : t.WriteTo ⟨[]⟩ with ⟨b, r⟩
    rw [hw] at ht
    simp only at ht
    subst ht
    rfl
  | cons x pre ih =>
    obtain ⟨h1, h2⟩ := hpre x (List.mem_cons_self _ _)
    rw [List.cons_append, stackLoop]
    rcases hw : x.WriteTo ⟨[]⟩ with ⟨b, r⟩
    rw [hw] at h1 h2
    simp only at h1 h2
    subst h1
    simp only []
    cases hn : tensorNew dims b.Bits with
    | none => exact absurd hn h2
    | some d => exact ih _ (fun y hy => hpre y (List.mem_cons_of_mem _ hy))

theorem tensorNew_nil_ok (S : List Nat) (hpos : 0 < S.prod)
    (hlt : S.prod < 9223372036854775808) : tensorNew (S.map toInt) [] ≠ none := by
  unfold tensorNew
  rw [if_neg (by rw [dims_nonneg S hpos hlt]; exact Bool.false_ne_true)]
  by_cases hS : S.map toInt = []
  · rw [if_pos hS]
    exact Option.some_ne_none _
  · have hsz : ¬ totalSize (S.map toInt) < 0 := by
      rw [totalSize_map_toInt, toInt_of_lt _ hlt]
      omega
    rw [if_neg hS, if_pos rfl, if_neg hsz]
    exact Option.some_ne_none _

/-- C17, as stated, fails: in a group whose first member, of shape `[2,2]`,
streams two bytes and whose second member hands over a buffer of odd length,
`tensor.New` panics on the first member and the error of the second is not
returned. -/
theorem expert_WriteTo_member_error_counterexample :
    (∃ c ∈ exampleOdd.chunks, c.length % 2 = 1) ∧
    (exampleOdd.WriteTo ⟨[]⟩).2 = some "odd length" ∧
    expert.WriteTo [exampleShort, exampleOdd] ⟨[], none⟩ = (⟨[], none⟩, none) := by
  decide

/-- C17, amended: when a member of a non-empty group fails to read or hands
over a buffer of odd length, the sink receives no byte, whether `WriteTo`
returns or panics, and when it returns it returns an error and the count 0; it
returns the error of the first failing member whenever `tensor.New` accepts
every member before it, which it does for a member that streamed, without error
and in buffers of even length, `2 * product(shape of e[0])` bytes or no byte at
all, that product being at least 1 and below `2^63`. -/
theorem expert_WriteTo_member_error (e : expert) (w : Sink)
    (h : ∃ t ∈ e, t.readErr ≠ none ∨ ∃ c ∈ t.chunks, c.length % 2 = 1) :
    (expert.WriteTo e w).1 = w ∧
    ((expert.WriteTo e w).2 = none ∨ ∃ err, (expert.WriteTo e w).2 = some (0, some err)) ∧
    (∀ (S : List Nat) (pre : List Tensor) (t : Tensor) (post : List Tensor),
      e = pre ++ t :: post → e.head?.map Tensor.Shape = some S →
      (∀ x ∈ pre, (x.WriteTo ⟨[]⟩).2 = none ∧
        tensorNew (S.map toInt) (x.WriteTo ⟨[]⟩).1.Bits ≠ none) →
      (t.readErr ≠ none ∨ ∃ c ∈ t.chunks, c.length % 2 = 1) →
      ∃ err, (t.WriteTo ⟨[]⟩).2 = some err ∧
        expert.WriteTo e w = (w, some (0, some err))) ∧
    ∀ (S : List Nat) (x : Tensor), 0 < S.prod → S.prod < 9223372036854775808 →
      x.readErr = none → (∀ c ∈ x.chunks, c.length % 2 = 0) →
      (x.bytes.length = 2 * S.prod ∨ x.bytes = []) →
      (x.WriteTo ⟨[]⟩).2 = none ∧ tensorNew (S.map toInt) (x.WriteTo ⟨[]⟩).1.Bits ≠ none := by
  refine ⟨?_, ?_, ?_, ?_⟩
  · cases e with
    | nil => rfl
    | cons t0 ts =>
      rcases stackLoop_fails (t0.Shape.map toInt) (t0 :: ts) [] h with hp | ⟨err, hf⟩
      · simp only [expert.WriteTo, hp]
      · simp only [expert.WriteTo, hf]
  · cases e with
    | nil => exact Or.inl rfl
    | cons t0 ts =>
      rcases stackLoop_fails (t0.Shape.map toInt) (t0 :: ts) [] h with hp | ⟨err, hf⟩
      · exact Or.inl (by simp only [expert.WriteTo, hp])
      · exact Or.inr ⟨err, by simp only [expert.WriteTo, hf]⟩
  · intro S pre t post he hS hpre ht
    obtain ⟨err, herr⟩ := WriteTo_fails t ⟨[]⟩ ht
    refine ⟨err, herr, ?_⟩
    have hl := stackLoop_first_fail (S.map toInt) pre t post [] err hpre herr
    rw [← he] at hl
    cases e with
    | nil => simp at hS
    | cons t0 ts =>
      simp only [List.head?_cons, Option.map_some', Option.some.injEq] at hS
      subst hS
      simp only [expert.WriteTo, hl]
  · intro S x hpos hlt hr hev hb
    have hw : x.WriteTo ⟨[]⟩ = (⟨pairsLE x.bytes⟩, none) := by
      simp [Tensor.WriteTo, feed_even x.chunks ⟨[]⟩ hev, hr, Tensor.bytes]
    rw [hw]
    refine ⟨rfl, ?_⟩
    rcases hb with hb | hb
    · have hlen : (pairsLE x.bytes).length = S.prod := by
        rw [pairsLE_length, hb]
        omega
      have := tensorNew_ok S (pairsLE x.bytes) hpos hlt hlen
      simp only [uint16s.Bits, this]
      exact Option.some_ne_none _
    · simp only [uint16s.Bits, hb, pairsLE]
      exact tensorNew_nil_ok S hpos hlt

/-- Witness of C17, amended: a member of shape `[2,2]` that streams no byte,
followed by a member that hands over a buffer of one byte. -/
theorem expert_WriteTo_member_error_witness :
    ∃ err, (exampleOdd.WriteTo ⟨[]⟩).2 = some err ∧
      expert.WriteTo [exampleEmpty, exampleOdd] ⟨[9], none⟩ = (⟨[9], none⟩, some (0, some err)) :=
  (expert_WriteTo_member_error [exampleEmpty, exampleOdd] ⟨[9], none⟩
    ⟨exampleOdd, by decide, by decide⟩).2.2.1 [2, 2] [exampleEmpty] exampleOdd [] rfl rfl
    (by decide) (by decide)

/-! ## The groups of `mixtral.Tensors` -/

theorem mapSet_append_perm (m : Experts) (n : List Char) (t : Tensor) :
    ((mapSet m n (mapGet m n ++ [t])).map Prod.snd).flatten.Perm
      (t :: (m.map Prod.snd).flatten) := by
  induction m with
  | nil => simp [mapSet, mapGet]
  | cons x m ih =>
    obtain ⟨k, e⟩ := x
    by_cases hk : k = n
    · simp only [mapSet, mapGet, hk, if_true, List.map_cons, List.flatten_cons,
        List.append_assoc, List.singleton_append]
      exact List.perm_middle
    · simp only [mapSet, mapGet, hk, if_false, List.map_cons, List.flatten_cons]
      exact (List.Perm.append_left e ih).trans List.perm_middle

theorem DeleteFunc_del_perm (namer : List (List Char × List Char)) (ts : List Tensor)
    (m : Experts) :
    ((DeleteFunc (del namer) ts m).1 ++
        ((DeleteFunc (del namer) ts m).2.map Prod.snd).flatten).Perm
      (ts ++ (m.map Prod.snd).flatten) := by
  induction ts generalizing m with
  | nil => simp [DeleteFunc]
  | cons t ts ih =>
    rw [DeleteFunc]
    by_cases hc : contains marker t.Name = true
    · have hdel : del namer m t =
          (true, mapSet m (Replace namer t.Name) (mapGet m (Replace namer t.Name) ++ [t])) := by
        simp [del, hc]
      rw [hdel]
      simp only []
      refine (ih _).trans ?_
      rw [List.cons_append]
      exact (List.Perm.append_left ts (mapSet_append_perm m _ t)).trans List.perm_middle
    · have hc1 : contains marker t.Name = false := by simpa using hc
      have hdel : del namer m t = (false, m) := by simp [del, hc1]
      rw [hdel]
      simp only [List.cons_append]
      exact List.Perm.cons t (ih m)

theorem length_flatten_groups (l : List (List Tensor)) :
    l.flatten.length = (l.map List.length).sum := by
  induction l with
  | nil => rfl
  | cons a l ih => simp [ih]

/-- C18: the group accumulated for a destination name is the list of the input
tensors whose name contains the marker and is rewritten to that name, in input
order; the kept tensors and the members of the groups are together the input
tensors, each once, so the sizes of the groups and the number of kept tensors
add up to `len(ts)`; a tensor whose name contains the marker is in the group of
its rewritten name and in no other, and one whose name does not is kept. -/
theorem mixtral_Tensors_groups (p : mixtral) (ts : List Tensor) :
    (∀ n, mapGet (DeleteFunc (del (oldnew p.NumLocalExperts)) ts []).2 n =
      ts.filter (fun t => contains marker t.Name &&
        decide (Replace (oldnew p.NumLocalExperts) t.Name = n))) ∧
    ((DeleteFunc (del (oldnew p.NumLocalExperts)) ts []).2.map Prod.fst).Nodup ∧
    (∀ n e, (n, e) ∈ (DeleteFunc (del (oldnew p.NumLocalExperts)) ts []).2 →
      e = ts.filter (fun t => contains marker t.Name &&
        decide (Replace (oldnew p.NumLocalExperts) t.Name = n))) ∧
    ((DeleteFunc (del (oldnew p.NumLocalExperts)) ts []).1 ++
      ((DeleteFunc (del (oldnew p.NumLocalExperts)) ts []).2.map Prod.snd).flatten).Perm ts ∧
    (((DeleteFunc (del (oldnew p.NumLocalExperts)) ts []).2.map
        (fun x => x.2.length)).sum +
      (DeleteFunc (del (oldnew p.NumLocalExperts)) ts []).1.length = ts.length) ∧
    ∀ t ∈ ts,
      (contains marker t.Name = true →
        t ∉ (DeleteFunc (del (oldnew p.NumLocalExperts)) ts []).1 ∧
        t ∈ mapGet (DeleteFunc (del (oldnew p.NumLocalExperts)) ts []).2
          (Replace (oldnew p.NumLocalExperts) t.Name) ∧
        ∀ n, n ≠ Replace (oldnew p.NumLocalExperts) t.Name →
          t ∉ mapGet (DeleteFunc (del (oldnew p.NumLocalExperts)) ts []).2 n) ∧
      (contains marker t.Name = false →
        t ∈ (DeleteFunc (del (oldnew p.NumLocalExperts)) ts []).1 ∧
        ∀ n, t ∉ mapGet (DeleteFunc (del (oldnew p.NumLocalExperts)) ts []).2 n) := by
  obtain ⟨hkept, hnd, hget, hkeys⟩ :=
    DeleteFunc_del (oldnew p.NumLocalExperts) ts [] [] (MapInv_nil _)
  rw [List.nil_append] at hget hkeys
  have hperm := DeleteFunc_del_perm (oldnew p.NumLocalExperts) ts []
  simp only [List.map_nil, List.flatten_nil, List.append_nil] at hperm
  have hget1 : ∀ n, mapGet (DeleteFunc (del (oldnew p.NumLocalExperts)) ts []).2 n =
      ts.filter (fun t => contains marker t.Name &&
        decide (Replace (oldnew p.NumLocalExperts) t.Name = n)) := hget
  refine ⟨hget1, hnd, ?_, hperm, ?_, ?_⟩
  · intro n e hm
    rw [← hget1 n]
    exact (mapGet_of_mem _ n e hnd hm).symm
  · have hl := hperm.length_eq
    rw [List.length_append, length_flatten_groups, List.map_map] at hl
    rw [← hl]
    exact Nat.add_comm _ _
  · intro t ht
    constructor
    · intro hc
      refine ⟨?_, ?_, ?_⟩
      · rw [hkept, List.mem_filter]
        simp [hc]
      · rw [hget1, List.mem_filter]
        simp [ht, hc]
      · intro n hn
        rw [hget1, List.mem_filter]
        simp [hc, Ne.symm hn]
    · intro hc
      refine ⟨?_, ?_⟩
      · rw [hkept, List.mem_filter]
        simp [ht, hc]
      · intro n
        rw [hget1, List.mem_filter]
        simp [hc]

/-- C19: every group stored in the map `experts` is non-empty, so `Kind` and
`Shape` do not panic on it; and whatever order the iteration over the map
takes, `mixtral.Tensors` does not panic. -/
theorem mixtral_Tensors_nonempty (p : mixtral) (ts : List Tensor) :
    (∀ x ∈ (DeleteFunc (del (oldnew p.NumLocalExperts)) ts []).2,
      x.2 ≠ [] ∧ (expert.Kind x.2).isSome = true ∧ (expert.Shape x.2).isSome = true) ∧
    ∀ (rangeMap : Experts → Experts), (∀ m, (rangeMap m).Perm m) →
      ∀ base, (p.Tensors base rangeMap ts).isSome = true := by
  obtain ⟨_, hnd, hget, hkeys⟩ :=
    DeleteFunc_del (oldnew p.NumLocalExperts) ts [] [] (MapInv_nil _)
  rw [List.nil_append] at hget hkeys
  constructor
  · rintro ⟨n, e⟩ hm
    have h1 := mapGet_of_mem _ n e hnd hm
    rw [hget] at h1
    obtain ⟨t, ht, hg⟩ := (hkeys n).1 (List.mem_map.2 ⟨(n, e), hm, rfl⟩)
    have hne : e ≠ [] := by
      rw [← h1]
      exact List.ne_nil_of_mem (List.mem_filter.2 ⟨ht, hg⟩)
    cases e with
    | nil => exact absurd rfl hne
    | cons t0 e => exact ⟨hne, rfl, rfl⟩
  · intro rangeMap hperm base
    obtain ⟨merged, h1, _⟩ := Tensors_spec p rangeMap ts hperm
    rw [h1 base]
    rfl

/-! ## Consistency of a group -/

/-- C12, as stated, fails: with `NumLocalExperts = 8` and the tensor of expert 3
missing, `mixtral.Tensors` emits a merged tensor of shape `[7,4,4]` and the
`WriteTo` of its group writes 224 bytes and returns no error. -/
theorem mixtral_Tensors_member_count_counterexample :
    mixtral.Tensors ⟨8, 2⟩ (fun _ => []) id exampleMissing =
      some [⟨"blk.0.ffn_gate_exps.weight".toList, 1, [7, 4, 4], .group exampleMissing⟩] ∧
    expert.WriteTo exampleMissing ⟨[], none⟩ =
      (⟨(exampleMissing.map Tensor.bytes).flatten, none⟩, some (0, none)) ∧
    ((exampleMissing.map Tensor.bytes).flatten).length = 224 := by
  refine ⟨by decide, ?_, ?_⟩
  · have h : ∀ t ∈ exampleMember 0 :: [1, 2, 4, 5, 6, 7].map exampleMember,
        t.readErr = none ∧ (∀ c ∈ t.chunks, c.length % 2 = 0) ∧
          t.bytes.length = 2 * (exampleMember 0).Shape.prod := by decide
    exact WriteTo_streams_eq (exampleMember 0) ([1, 2, 4, 5, 6, 7].map exampleMember)
      ⟨[], none⟩ (by decide) (by decide) h
  · exact flatten_bytes_length 16 exampleMissing (by decide)

/-- C12, amended: whatever `NumLocalExperts` is, `mixtral.Tensors` reports no
error and emits exactly one merged tensor for every destination name of an
expert tensor of the input, whose group is the list of the input tensors routed
to that name and whose leading dimension is the number of members that group
has; and when these members each stream without error, in buffers of even
length, `2 * product(S)` bytes, `S` being the shape of the first and
`product(S)` at least 1 and below `2^63`, and the sink accepts the bytes, the
`WriteTo` of the group returns no error and writes that number of members times
`product(S) * 2` bytes. -/
theorem mixtral_Tensors_member_count (p : mixtral) (rangeMap : Experts → Experts)
    (ts : List Tensor) (hperm : ∀ m, (rangeMap m).Perm m) :
    ∃ merged, (∀ base, p.Tensors base rangeMap ts = some (merged ++
        base (ts.filter (fun t => !contains marker t.Name)))) ∧
      (merged.map llm.Tensor.Name).Nodup ∧
      (∀ n, n ∈ merged.map llm.Tensor.Name ↔
        ∃ t ∈ ts, contains marker t.Name = true ∧ Replace (oldnew p.NumLocalExperts) t.Name = n) ∧
      ∀ o ∈ merged, ∃ t0 rest, o.WriterTo = .group (t0 :: rest) ∧
        t0 :: rest = ts.filter (fun t => contains marker t.Name &&
          decide (Replace (oldnew p.NumLocalExperts) t.Name = o.Name)) ∧
        o.Shape = (t0 :: rest).length :: t0.Shape ∧
        ((∀ t ∈ t0 :: rest, t.readErr = none ∧ (∀ c ∈ t.chunks, c.length % 2 = 0) ∧
            t.bytes.length = 2 * t0.Shape.prod) →
          0 < t0.Shape.prod → t0.Shape.prod < 9223372036854775808 →
          ∀ w : Sink, (∀ k, w.room = some k → (t0 :: rest).length * t0.Shape.prod * 2 ≤ k) →
            ∃ out w1, expert.WriteTo (t0 :: rest) w = (w1, some (0, none)) ∧
              w1.data = w.data ++ out ∧
              out.length = (t0 :: rest).length * t0.Shape.prod * 2) := by
  obtain ⟨merged, h1, h2, h3, h4⟩ := Tensors_spec p rangeMap ts hperm
  refine ⟨merged, h1, h2, ?_, ?_⟩
  · intro n
    rw [h3]
    simp [inGroup]
  intro o ho
  obtain ⟨e, g1, g2, _, g4, g5⟩ := h4 o ho
  cases e with
  | nil => exact absurd rfl g2
  | cons t0 rest =>
    refine ⟨t0, rest, g5, g1, ?_, ?_⟩
    · simp only [expert.Shape, Option.some.injEq] at g4
      exact g4.symm
    · intro hw hpos hlt w hroom
      have hlen := flatten_bytes_length t0.Shape.prod (t0 :: rest) (fun t ht => (hw t ht).2.2)
      obtain ⟨f1, f2⟩ := Sink_Write_fits w ((t0 :: rest).map Tensor.bytes).flatten
        (fun k hk => hlen ▸ hroom k hk)
      refine ⟨_, _, ?_, f2, hlen⟩
      rw [WriteTo_streams_eq t0 rest w hpos hlt hw, f1]

/-- Witness of C12, amended: the example without the tensor of expert 3, with
`NumLocalExperts = 8`. -/
theorem mixtral_Tensors_member_count_witness :
    ∃ merged, (∀ base, mixtral.Tensors ⟨8, 2⟩ base id exampleMissing = some (merged ++
        base (exampleMissing.filter (fun t => !contains marker t.Name)))) ∧
      (merged.map llm.Tensor.Name).Nodup ∧
      (∀ n, n ∈ merged.map llm.Tensor.Name ↔
        ∃ t ∈ exampleMissing, contains marker t.Name = true ∧
          Replace (oldnew (mixtral.mk 8 2).NumLocalExperts) t.Name = n) ∧
      ∀ o ∈ merged, ∃ t0 rest, o.WriterTo = .group (t0 :: rest) ∧
        t0 :: rest = exampleMissing.filter (fun t => contains marker t.Name &&
          decide (Replace (oldnew (mixtral.mk 8 2).NumLocalExperts) t.Name = o.Name)) ∧
        o.Shape = (t0 :: rest).length :: t0.Shape ∧
        ((∀ t ∈ t0 :: rest, t.readErr = none ∧ (∀ c ∈ t.chunks, c.length % 2 = 0) ∧
            t.bytes.length = 2 * t0.Shape.prod) →
          0 < t0.Shape.prod → t0.Shape.prod < 9223372036854775808 →
          ∀ w : Sink, (∀ k, w.room = some k → (t0 :: rest).length * t0.Shape.prod * 2 ≤ k) →
            ∃ out w1, expert.WriteTo (t0 :: rest) w = (w1, some (0, none)) ∧
              w1.data = w.data ++ out ∧
              out.length = (t0 :: rest).length * t0.Shape.prod * 2) :=
  mixtral_Tensors_member_count ⟨8, 2⟩ id exampleMissing (fun m => List.Perm.refl m)

/-- C14, as stated, fails: when the input lists the tensor of expert 1 before
the tensor of expert 0, the group holds them in that order, and its `WriteTo`
writes other bytes than for the input in index order. -/
theorem mixtral_Tensors_scan_order_counterexample :
    [exampleMember 1, exampleMember 0].Perm [exampleMember 0, exampleMember 1] ∧
    mapGet (DeleteFunc (del (oldnew 2)) [exampleMember 1, exampleMember 0] []).2
      "blk.0.ffn_gate_exps.weight".toList = [exampleMember 1, exampleMember 0] ∧
    mapGet (DeleteFunc (del (oldnew 2)) [exampleMember 0, exampleMember 1] []).2
      "blk.0.ffn_gate_exps.weight".toList = [exampleMember 0, exampleMember 1] ∧
    expert.WriteTo [exampleMember 1, exampleMember 0] ⟨[], none⟩ =
      (⟨List.replicate 32 1 ++ List.replicate 32 0, none⟩, some (0, none)) ∧
    expert.WriteTo [exampleMember 0, exampleMember 1] ⟨[], none⟩ =
      (⟨List.replicate 32 0 ++ List.replicate 32 1, none⟩, some (0, none)) := by
  refine ⟨List.Perm.swap _ _ _, ?_, ?_, ?_, ?_⟩ <;> decide

/-- C14, amended: the members of a group are in the order in which the input
lists them; two inputs that are permutations of each other give groups with the
same members, and two inputs that list the tensors of a destination name in the
same order give the same group, hence the same result of `WriteTo`. -/
theorem mixtral_Tensors_scan_order (p : mixtral) (ts ts1 : List Tensor) (n : List Char) :
    (mapGet (DeleteFunc (del (oldnew p.NumLocalExperts)) ts []).2 n).Sublist ts ∧
    (ts.Perm ts1 →
      (mapGet (DeleteFunc (del (oldnew p.NumLocalExperts)) ts []).2 n).Perm
        (mapGet (DeleteFunc (del (oldnew p.NumLocalExperts)) ts1 []).2 n)) ∧
    (ts.filter (fun t => contains marker t.Name &&
        decide (Replace (oldnew p.NumLocalExperts) t.Name = n)) =
      ts1.filter (fun t => contains marker t.Name &&
        decide (Replace (oldnew p.NumLocalExperts) t.Name = n)) →
      mapGet (DeleteFunc (del (oldnew p.NumLocalExperts)) ts []).2 n =
        mapGet (DeleteFunc (del (oldnew p.NumLocalExperts)) ts1 []).2 n ∧
      ∀ w, expert.WriteTo (mapGet (DeleteFunc (del (oldnew p.NumLocalExperts)) ts []).2 n) w =
        expert.WriteTo (mapGet (DeleteFunc (del (oldnew p.NumLocalExperts)) ts1 []).2 n) w) := by
  have hg := (DeleteFunc_del (oldnew p.NumLocalExperts) ts [] [] (MapInv_nil _)).2.2.1 n
  have hg1 := (DeleteFunc_del (oldnew p.NumLocalExperts) ts1 [] [] (MapInv_nil _)).2.2.1 n
  rw [List.nil_append] at hg hg1
  rw [hg, hg1]
  refine ⟨List.filter_sublist _, fun hp => hp.filter _, ?_⟩
  intro h
  have h1 : ts.filter (inGroup (oldnew p.NumLocalExperts) n) =
      ts1.filter (inGroup (oldnew p.NumLocalExperts) n) := h
  exact ⟨h1, fun w => by rw [h1]⟩

/-- Witness of C14, amended: a tensor that is no expert tensor placed before or
between the two expert tensors of the input. -/
theorem mixtral_Tensors_scan_order_witness :
    mapGet (DeleteFunc (del (oldnew (mixtral.mk 2 2).NumLocalExperts))
        [exampleOther, exampleMember 0, exampleMember 1] []).2
        "blk.0.ffn_gate_exps.weight".toList =
      mapGet (DeleteFunc (del (oldnew (mixtral.mk 2 2).NumLocalExperts))
        [exampleMember 0, exampleOther, exampleMember 1] []).2
        "blk.0.ffn_gate_exps.weight".toList :=
  ((mixtral_Tensors_scan_order ⟨2, 2⟩ [exampleOther, exampleMember 0, exampleMember 1]
    [exampleMember 0, exampleOther, exampleMember 1]
    "blk.0.ffn_gate_exps.weight".toList).2.2 (by decide)).1

/-! ## Expert indices outside the table -/

theorem lookup_none_lt (N : Nat) (s : List Char)
    (h1 : "model.layers".toList.isPrefixOf s = false)
    (h2 : "w1".toList.isPrefixOf s = false) (h3 : "w2".toList.isPrefixOf s = false)
    (h4 : "w3".toList.isPrefixOf s = false)
    (hg : ∀ j, j < N → (expertOld j).isPrefixOf s = false) : lookup (oldnew N) s = none := by
  unfold lookup oldnew
  rw [List.find?_eq_none]
  intro p hp
  rw [List.mem_append] at hp
  rcases hp with hp | hp
  · simp only [List.mem_cons, List.mem_singleton, List.not_mem_nil, or_false] at hp
    rcases hp with rfl | rfl | rfl | rfl <;>
      simp only [h1, h2, h3, h4, Bool.false_eq_true, not_false_eq_true]
  · obtain ⟨j, hj, rfl⟩ := List.mem_map.1 hp
    simp only [hg j (List.mem_range.1 hj), Bool.false_eq_true, not_false_eq_true]

theorem lookup_expertOld_out (N i : Nat) (hi : N ≤ i) (rest : List Char) :
    lookup (oldnew N) (expertOld i ++ rest) = none := by
  apply lookup_none_lt
  · rw [expertOld_eq, List.cons_append]
    exact isPrefixOf_cons_ne _ _ _ _ (by decide)
  · rw [expertOld_eq, List.cons_append]
    exact isPrefixOf_cons_ne _ _ _ _ (by decide)
  · rw [expertOld_eq, List.cons_append]
    exact isPrefixOf_cons_ne _ _ _ _ (by decide)
  · rw [expertOld_eq, List.cons_append]
    exact isPrefixOf_cons_ne _ _ _ _ (by decide)
  · intro j hj
    exact Bool.eq_false_iff.2 ((expertOld_isPrefixOf j i rest).not.2 (by omega))

theorem lookup_m (N : Nat) (c1 c2 : Char) (cs : List Char) (h : c2 ≠ 'd') :
    lookup (oldnew N) ('m' :: c1 :: c2 :: cs) = none := by
  apply lookup_none
  · show ('m' :: 'o' :: 'd' :: "el.layers".toList).isPrefixOf _ = false
    simp [List.isPrefixOf, Ne.symm h]
  · exact isPrefixOf_cons_ne _ _ _ _ (by decide)
  · exact isPrefixOf_cons_ne _ _ _ _ (by decide)
  · exact isPrefixOf_cons_ne _ _ _ _ (by decide)
  · intro j
    rw [expertOld_eq]
    exact isPrefixOf_cons_ne _ _ _ _ (by decide)

/-- The rewriting of a per-expert name whose index is not in the table, up to
the projection token: the layer prefix becomes `blk` and the expert segment is
copied. -/
theorem Replace_expert_name_out (N : Nat) (L : List Char) (i : Nat) (c : Char)
    (rest : List Char) (hL : ∀ c ∈ L, c.isDigit = true) (hi : N ≤ i) (hc : c ≠ 'b') :
    Replace (oldnew N) ("model.layers.".toList ++ L ++ ".block_sparse_moe.experts.".toList ++
        Nat.toDigits 10 i ++ '.' :: c :: rest) =
      "blk.".toList ++ L ++ ".block_sparse_moe.experts.".toList ++ Nat.toDigits 10 i ++
        '.' :: replaceFrom (oldnew N) 0 (c :: rest) := by
  have e : "model.layers.".toList ++ L ++ ".block_sparse_moe.experts.".toList ++
      Nat.toDigits 10 i ++ '.' :: c :: rest =
      "model.layers".toList ++ ('.' :: (L ++ ('.' :: ("block_sparse_".toList ++
        ('m' :: 'o' :: 'e' :: '.' :: 'e' :: ("xperts".toList ++
          ('.' :: (Nat.toDigits 10 i ++ ('.' :: c :: rest))))))))) := by
    simp
  have e2 : '.' :: ("block_sparse_".toList ++ ('m' :: 'o' :: 'e' :: '.' :: 'e' :: ("xperts".toList ++
      ('.' :: (Nat.toDigits 10 i ++ ('.' :: c :: rest)))))) = expertOld i ++ c :: rest := by
    simp [expertOld, marker]
  have hdot : lookup (oldnew N) ('.' :: (L ++ ('.' :: ("block_sparse_".toList ++
      ('m' :: 'o' :: 'e' :: '.' :: 'e' :: ("xperts".toList ++
        ('.' :: (Nat.toDigits 10 i ++ ('.' :: c :: rest))))))))) = none := by
    cases L with
    | nil =>
      rw [List.nil_append]
      exact lookup_dot N _ _ (by decide)
    | cons d L =>
      rw [List.cons_append]
      exact lookup_dot N _ _ (isDigit_ne d (hL d (List.mem_cons_self _ _))).2.2.2
  have hdig : lookup (oldnew N) ('.' :: (Nat.toDigits 10 i ++ ('.' :: c :: rest))) = none := by
    have hne := toDigits_ne_nil i
    have hd := toDigits_isDigit i
    cases hD : Nat.toDigits 10 i with
    | nil => exact absurd hD hne
    | cons d D =>
      rw [hD] at hd
      rw [List.cons_append]
      exact lookup_dot N _ _ (isDigit_ne d (hd d (List.mem_cons_self _ _))).2.2.2
  have hcopyL := fun c hc => (⟨(isDigit_ne c (hL c hc)).1, (isDigit_ne c (hL c hc)).2.1,
      (isDigit_ne c (hL c hc)).2.2.1⟩ : c ≠ 'm' ∧ c ≠ 'w' ∧ c ≠ '.')
  have hcopyD := fun c hc => (⟨(isDigit_ne c (toDigits_isDigit i c hc)).1,
      (isDigit_ne c (toDigits_isDigit i c hc)).2.1,
      (isDigit_ne c (toDigits_isDigit i c hc)).2.2.1⟩ : c ≠ 'm' ∧ c ≠ 'w' ∧ c ≠ '.')
  unfold Replace
  rw [e, replaceFrom_match _ _ _ _ (by decide) (lookup_model N _), replaceFrom_none _ _ _ hdot,
    replaceFrom_copy N L _ hcopyL,
    replaceFrom_none _ _ _ (e2 ▸ lookup_expertOld_out N i hi (c :: rest)),
    replaceFrom_copy N "block_sparse_".toList _ (by decide),
    replaceFrom_none _ _ _ (lookup_m N _ _ _ (by decide)),
    replaceFrom_none _ _ _ (lookup_other N _ _ (by decide) (by decide) (by decide)),
    replaceFrom_none _ _ _ (lookup_other N _ _ (by decide) (by decide) (by decide)),
    replaceFrom_none _ _ _ (lookup_dot N _ _ (by decide)),
    replaceFrom_none _ _ _ (lookup_other N _ _ (by decide) (by decide) (by decide)),
    replaceFrom_copy N "xperts".toList _ (by decide),
    replaceFrom_none _ _ _ hdig,
    replaceFrom_copy N (Nat.toDigits 10 i) _ hcopyD,
    replaceFrom_none _ _ _ (lookup_dot N c rest hc)]
  simp

theorem replaceFrom_projection (N : Nat) (pr : List Char × List Char) (h : pr ∈ projections) :
    replaceFrom (oldnew N) 0 (pr.1 ++ ".weight".toList) = pr.2 ++ ".weight".toList := by
  simp only [projections, List.mem_cons, List.mem_singleton, List.not_mem_nil, or_false] at h
  rcases h with rfl | rfl | rfl
  · rw [replaceFrom_match _ _ _ _ (by decide) (lookup_w1 N _), replaceFrom_weight]
  · rw [replaceFrom_match _ _ _ _ (by decide) (lookup_w2 N _), replaceFrom_weight]
  · rw [replaceFrom_match _ _ _ _ (by decide) (lookup_w3 N _), replaceFrom_weight]

theorem projection_heads (pr : List Char × List Char) (h : pr ∈ projections) :
    (∃ r, pr.1 = 'w' :: r) ∧ ∃ r, pr.2 = 'f' :: r := by
  simp only [projections, List.mem_cons, List.mem_singleton, List.not_mem_nil, or_false] at h
  rcases h with rfl | rfl | rfl <;> exact ⟨⟨_, rfl⟩, ⟨_, rfl⟩⟩

theorem prefix_of_eq {l1 l2 : List Char} (h : l1 = l2) : l1 <+: l2 :=
  h ▸ List.prefix_refl l1

theorem dot_not_mem_digits (L : List Char) (hL : ∀ c ∈ L, c.isDigit = true) : '.' ∉ L := by
  intro h
  exact absurd (hL _ h) (by decide)

theorem Replace_out_projection (N : Nat) (L : List Char) (i : Nat) (pr : List Char × List Char)
    (hL : ∀ c ∈ L, c.isDigit = true) (hi : N ≤ i) (hpr : pr ∈ projections) :
    Replace (oldnew N) ("model.layers.".toList ++ L ++ ".block_sparse_moe.experts.".toList ++
        Nat.toDigits 10 i ++ '.' :: (pr.1 ++ ".weight".toList)) =
      "blk.".toList ++ L ++ ".block_sparse_moe.experts.".toList ++ Nat.toDigits 10 i ++
        '.' :: (pr.2 ++ ".weight".toList) := by
  obtain ⟨⟨r, hr⟩, _⟩ := projection_heads pr hpr
  have h := Replace_expert_name_out N L i 'w' (r ++ ".weight".toList) hL hi (by decide)
  rw [← List.cons_append, ← hr, replaceFrom_projection N pr hpr] at h
  exact h

theorem Replace_in_projection (N : Nat) (L : List Char) (i : Nat) (pr : List Char × List Char)
    (hL : ∀ c ∈ L, c.isDigit = true) (hi : i < N) (hpr : pr ∈ projections) :
    Replace (oldnew N) ("model.layers.".toList ++ L ++ ".block_sparse_moe.experts.".toList ++
        Nat.toDigits 10 i ++ '.' :: (pr.1 ++ ".weight".toList)) =
      "blk.".toList ++ L ++ '.' :: (pr.2 ++ ".weight".toList) := by
  rw [Replace_expert_name N L i _ hL hi, replaceFrom_projection N pr hpr]

/-- C16: for an expert index `i` not below `NumLocalExperts`, the rewritten name
of `model.layers.L.block_sparse_moe.experts.i.wK.weight` is
`blk.L.block_sparse_moe.experts.i.` followed by the rewritten projection and
`.weight`: it still contains the segment `.block_sparse_moe.experts.i.`, and it
differs from the rewritten name of the tensor of every other expert index, in
the table or not, of any layer and projection. -/
theorem namer_out_of_range (N : Nat) (L : List Char) (i : Nat)
    (hL : ∀ c ∈ L, c.isDigit = true) (hi : N ≤ i) :
    (∀ pr ∈ projections,
      Replace (oldnew N) ("model.layers.".toList ++ L ++ ".block_sparse_moe.experts.".toList ++
          Nat.toDigits 10 i ++ '.' :: (pr.1 ++ ".weight".toList)) =
        "blk.".toList ++ L ++ ".block_sparse_moe.experts.".toList ++ Nat.toDigits 10 i ++
          '.' :: (pr.2 ++ ".weight".toList)) ∧
    (∀ pr ∈ projections,
      (".block_sparse_moe.experts.".toList ++ Nat.toDigits 10 i ++ ['.']) <:+:
        Replace (oldnew N) ("model.layers.".toList ++ L ++
          ".block_sparse_moe.experts.".toList ++ Nat.toDigits 10 i ++
          '.' :: (pr.1 ++ ".weight".toList))) ∧
    ∀ pr ∈ projections, ∀ (L1 : List Char) (j : Nat), ∀ pr1 ∈ projections,
      (∀ c ∈ L1, c.isDigit = true) → j ≠ i →
      Replace (oldnew N) ("model.layers.".toList ++ L ++ ".block_sparse_moe.experts.".toList ++
          Nat.toDigits 10 i ++ '.' :: (pr.1 ++ ".weight".toList)) ≠
        Replace (oldnew N) ("model.layers.".toList ++ L1 ++
          ".block_sparse_moe.experts.".toList ++ Nat.toDigits 10 j ++
          '.' :: (pr1.1 ++ ".weight".toList)) := by
  have hm : ".block_sparse_moe.experts.".toList = '.' :: "block_sparse_moe.experts.".toList :=
    rfl
  refine ⟨fun pr hpr => Replace_out_projection N L i pr hL hi hpr, ?_, ?_⟩
  · intro pr hpr
    rw [Replace_out_projection N L i pr hL hi hpr]
    refine ⟨"blk.".toList ++ L, pr.2 ++ ".weight".toList, ?_⟩
    simp only [List.append_assoc, List.singleton_append]
  · intro pr hpr L1 j pr1 hpr1 hL1 hji heq
    rw [Replace_out_projection N L i pr hL hi hpr] at heq
    by_cases hj : j < N
    · rw [Replace_in_projection N L1 j pr1 hL1 hj hpr1, hm] at heq
      simp only [List.append_assoc, List.cons_append, List.append_cancel_left_eq] at heq
      have hLL : L = L1 := prefix_sep '.' L L1 _ _ (dot_not_mem_digits L hL)
        (dot_not_mem_digits L1 hL1) (prefix_of_eq heq)
      subst hLL
      obtain ⟨_, ⟨r, hr⟩⟩ := projection_heads pr1 hpr1
      rw [hr] at heq
      simp only [List.append_cancel_left_eq, List.cons.injEq, true_and, List.cons_append] at heq
      rw [show "block_sparse_moe.experts.".toList = 'b' :: "lock_sparse_moe.experts.".toList
        from rfl, List.cons_append] at heq
      exact absurd (List.cons.inj heq).1 (by decide)
    · rw [Replace_out_projection N L1 j pr1 hL1 (by omega) hpr1, hm] at heq
      simp only [List.append_assoc, List.cons_append, List.append_cancel_left_eq] at heq
      have hLL : L = L1 := prefix_sep '.' L L1 _ _ (dot_not_mem_digits L hL)
        (dot_not_mem_digits L1 hL1) (prefix_of_eq heq)
      subst hLL
      simp only [List.append_cancel_left_eq, List.cons.injEq, true_and] at heq
      have hD := prefix_sep '.' _ _ _ _ (dot_not_mem_toDigits i) (dot_not_mem_toDigits j)
        (prefix_of_eq heq)
      exact hji (toDigits_inj i j hD).symm

/-- Witness of C16: with `NumLocalExperts = 2`, the index 10, of which the index
1 of the table is a decimal prefix, is not rewritten. -/
theorem namer_out_of_range_witness :
    Replace (oldnew 2) ("model.layers.".toList ++ ['0'] ++ ".block_sparse_moe.experts.".toList ++
        Nat.toDigits 10 10 ++ '.' :: ("w1".toList ++ ".weight".toList)) =
      "blk.".toList ++ ['0'] ++ ".block_sparse_moe.experts.".toList ++ Nat.toDigits 10 10 ++
        '.' :: ("ffn_gate_exps".toList ++ ".weight".toList) ∧
    Replace (oldnew 2) "model.layers.0.block_sparse_moe.experts.10.w1.weight".toList =
      "blk.0.block_sparse_moe.experts.10.ffn_gate_exps.weight".toList :=
  ⟨(namer_out_of_range 2 ['0'] 10 (by decide) (by decide)).1
      ("w1".toList, "ffn_gate_exps".toList) (by decide), by decide⟩

/-! ## The rewriter applied twice -/

theorem marker_prefix_expertOld (j : Nat) : marker <+: expertOld j := by
  unfold expertOld
  rw [List.append_assoc]
  exact List.prefix_append _ _

theorem lookup_cases (N : Nat) (s : List Char) :
    lookup (oldnew N) s = none ∨
    (∃ pr ∈ fixedPairs, lookup (oldnew N) s = some pr ∧ pr.1 <+: s) ∨
    ∃ j, lookup (oldnew N) s = some (expertOld j, ['.']) ∧ expertOld j <+: s := by
  cases h : lookup (oldnew N) s with
  | none => exact Or.inl rfl
  | some pr =>
    have hf : (oldnew N).find? (fun p => p.1.isPrefixOf s) = some pr := h
    have hq : (fun p : List Char × List Char => p.1.isPrefixOf s) pr = true :=
      List.find?_some (p := fun p : List Char × List Char => p.1.isPrefixOf s) hf
    have hp : pr.1 <+: s := List.isPrefixOf_iff_prefix.1 hq
    have hm : pr ∈ oldnew N := List.mem_of_find?_eq_some hf
    unfold oldnew at hm
    rcases List.mem_append.1 hm with hm | hm
    · exact Or.inr (Or.inl ⟨pr, hm, rfl, hp⟩)
    · obtain ⟨j, _, rfl⟩ := List.mem_map.1 hm
      exact Or.inr (Or.inr ⟨j, rfl, hp⟩)

theorem fixedPairs_old_ne_nil (pr : List Char × List Char) (h : pr ∈ fixedPairs) :
    pr.1 ≠ [] := by
  simp only [fixedPairs, List.mem_cons, List.mem_singleton, List.not_mem_nil, or_false] at h
  rcases h with rfl | rfl | rfl | rfl <;> decide

theorem scan_step (N : Nat) (c : Char) (cs : List Char) (hno : ¬ marker <:+: c :: cs) :
    (lookup (oldnew N) (c :: cs) = none ∧
      replaceFrom (oldnew N) 0 (c :: cs) = c :: replaceFrom (oldnew N) 0 cs) ∨
    ∃ pr ∈ fixedPairs, ∃ rest, c :: cs = pr.1 ++ rest ∧
      replaceFrom (oldnew N) 0 (c :: cs) = pr.2 ++ replaceFrom (oldnew N) 0 rest := by
  rcases lookup_cases N (c :: cs) with h | ⟨pr, hpr, h, hp⟩ | ⟨j, _, hp⟩
  · exact Or.inl ⟨h, replaceFrom_none _ _ _ h⟩
  · obtain ⟨rest, hrest⟩ := hp
    refine Or.inr ⟨pr, hpr, rest, hrest.symm, ?_⟩
    rw [← hrest] at h ⊢
    exact replaceFrom_match _ _ _ _ (fixedPairs_old_ne_nil pr hpr) h
  · exact absurd ((marker_prefix_expertOld j).trans hp).isInfix hno

theorem fixedPairs_new_stable (N : Nat) (pr : List Char × List Char) (h : pr ∈ fixedPairs)
    (Y : List Char) :
    replaceFrom (oldnew N) 0 (pr.2 ++ Y) = pr.2 ++ replaceFrom (oldnew N) 0 Y := by
  simp only [fixedPairs, List.mem_cons, List.mem_singleton, List.not_mem_nil, or_false] at h
  rcases h with rfl | rfl | rfl | rfl
  · exact replaceFrom_copy N _ _ (by decide)
  · exact replaceFrom_copy N _ _ (by decide)
  · show replaceFrom (oldnew N) 0 ("ffn_do".toList ++ ('w' :: 'n' :: ("_exps".toList ++ Y))) = _
    rw [replaceFrom_copy N _ _ (by decide),
      replaceFrom_none _ _ _ (lookup_w N _ _ (by decide) (by decide) (by decide)),
      replaceFrom_none _ _ _ (lookup_other N _ _ (by decide) (by decide) (by decide)),
      replaceFrom_copy N _ _ (by decide)]
    rfl
  · exact replaceFrom_copy N _ _ (by decide)

theorem fixedPairs_new_head (pr : List Char × List Char) (h : pr ∈ fixedPairs) :
    ∃ a b r, pr.2 = a :: b :: r ∧ (a = 'f' ∨ a = 'b' ∧ b = 'l' ∧ r = ['k']) := by
  simp only [fixedPairs, List.mem_cons, List.mem_singleton, List.not_mem_nil, or_false] at h
  rcases h with rfl | rfl | rfl | rfl
  · exact ⟨'b', 'l', ['k'], rfl, Or.inr ⟨rfl, rfl, rfl⟩⟩
  · exact ⟨'f', _, _, rfl, Or.inl rfl⟩
  · exact ⟨'f', _, _, rfl, Or.inl rfl⟩
  · exact ⟨'f', _, _, rfl, Or.inl rfl⟩

theorem not_marker_tail (c : Char) (cs : List Char) (hno : ¬ marker <:+: c :: cs) :
    ¬ marker <:+: cs :=
  fun h => hno (h.trans (List.suffix_cons c cs).isInfix)

theorem not_marker_rest (old rest : List Char) (hno : ¬ marker <:+: old ++ rest) :
    ¬ marker <:+: rest :=
  fun h => hno (h.trans (List.suffix_append old rest).isInfix)

theorem prefix_of_replace (N : Nat) (x cs : List Char) (hno : ¬ marker <:+: cs)
    (hx : ∀ a ∈ x, a ≠ 'b' ∧ a ≠ 'f') (h : x <+: replaceFrom (oldnew N) 0 cs) : x <+: cs := by
  induction x generalizing cs with
  | nil => exact List.nil_prefix
  | cons a x ih =>
    cases cs with
    | nil =>
      rw [replaceFrom] at h
      exact h
    | cons c cs =>
      rcases scan_step N c cs hno with ⟨_, hr⟩ | ⟨pr, hpr, rest, _, hr⟩
      · rw [hr, List.cons_prefix_cons] at h
        rw [List.cons_prefix_cons]
        exact ⟨h.1, ih cs (not_marker_tail c cs hno)
          (fun b hb => hx b (List.mem_cons_of_mem _ hb)) h.2⟩
      · obtain ⟨a1, b1, r, hnew, hhead⟩ := fixedPairs_new_head pr hpr
        rw [hr, hnew, List.cons_append, List.cons_prefix_cons] at h
        have ha := hx a (List.mem_cons_self _ _)
        rcases hhead with hf | ⟨hb, _⟩
        · exact absurd (h.1.trans hf) ha.2
        · exact absurd (h.1.trans hb) ha.1

theorem lookup_w_nil (N : Nat) : lookup (oldnew N) ['w'] = none := by
  apply lookup_none
  · exact isPrefixOf_cons_ne _ _ _ _ (by decide)
  · decide
  · decide
  · decide
  · intro j
    rw [expertOld_eq]
    exact isPrefixOf_cons_ne _ _ _ _ (by decide)

theorem lookup_replace_w (N : Nat) (cs : List Char) (hno : ¬ marker <:+: cs)
    (hl : lookup (oldnew N) ('w' :: cs) = none) :
    lookup (oldnew N) ('w' :: replaceFrom (oldnew N) 0 cs) = none := by
  cases cs with
  | nil =>
    rw [replaceFrom]
    exact lookup_w_nil N
  | cons c cs =>
    rcases scan_step N c cs hno with ⟨_, hr⟩ | ⟨pr, hpr, rest, _, hr⟩
    · rw [hr]
      refine lookup_w N _ _ ?_ ?_ ?_
      · rintro rfl
        rw [lookup_w1] at hl
        exact absurd hl (by simp)
      · rintro rfl
        rw [lookup_w2] at hl
        exact absurd hl (by simp)
      · rintro rfl
        rw [lookup_w3] at hl
        exact absurd hl (by simp)
    · obtain ⟨a, b, r, hnew, hhead⟩ := fixedPairs_new_head pr hpr
      rw [hr, hnew, List.cons_append]
      rcases hhead with rfl | ⟨rfl, _⟩
      · exact lookup_w N _ _ (by decide) (by decide) (by decide)
      · exact lookup_w N _ _ (by decide) (by decide) (by decide)

theorem lookup_replace_m (N : Nat) (cs : List Char) (hno : ¬ marker <:+: cs)
    (hl : lookup (oldnew N) ('m' :: cs) = none) :
    lookup (oldnew N) ('m' :: replaceFrom (oldnew N) 0 cs) = none := by
  apply lookup_none
  · apply Bool.eq_false_iff.2
    intro h
    have hp : 'm' :: "odel.layers".toList <+: 'm' :: replaceFrom (oldnew N) 0 cs :=
      List.isPrefixOf_iff_prefix.1 h
    rw [List.cons_prefix_cons] at hp
    obtain ⟨rest, hrest⟩ := prefix_of_replace N _ cs hno (by decide) hp.2
    rw [← hrest, ← List.cons_append] at hl
    have := lookup_model N rest
    rw [show "model.layers".toList = 'm' :: "odel.layers".toList from rfl] at this
    rw [this] at hl
    exact absurd hl (by simp)
  · exact isPrefixOf_cons_ne _ _ _ _ (by decide)
  · exact isPrefixOf_cons_ne _ _ _ _ (by decide)
  · exact isPrefixOf_cons_ne _ _ _ _ (by decide)
  · intro j
    rw [expertOld_eq]
    exact isPrefixOf_cons_ne _ _ _ _ (by decide)

theorem lookup_replace_dot (N : Nat) (cs : List Char) (hno : ¬ marker <:+: '.' :: cs) :
    lookup (oldnew N) ('.' :: replaceFrom (oldnew N) 0 cs) = none := by
  apply lookup_none
  · exact isPrefixOf_cons_ne _ _ _ _ (by decide)
  · exact isPrefixOf_cons_ne _ _ _ _ (by decide)
  · exact isPrefixOf_cons_ne _ _ _ _ (by decide)
  · exact isPrefixOf_cons_ne _ _ _ _ (by decide)
  · intro j
    apply Bool.eq_false_iff.2
    intro h
    have hp : expertOld j <+: '.' :: replaceFrom (oldnew N) 0 cs :=
      List.isPrefixOf_iff_prefix.1 h
    rw [expertOld_eq, List.cons_prefix_cons] at hp
    have hp2 := hp.2
    cases cs with
    | nil =>
      rw [replaceFrom] at hp2
      exact absurd (List.prefix_nil.1 hp2) (List.cons_ne_nil _ _)
    | cons c cs =>
      rcases scan_step N c cs (not_marker_tail _ _ hno) with ⟨_, hr⟩ | ⟨pr, hpr, rest, _, hr⟩
      · rw [hr, List.cons_prefix_cons] at hp2
        have hc : c = 'b' := hp2.1.symm
        subst hc
        have h3 : "lock_sparse_moe.experts.".toList <+: replaceFrom (oldnew N) 0 cs := by
          refine List.IsPrefix.trans ?_ hp2.2
          rw [List.append_assoc]
          exact List.prefix_append _ _
        have h4 := prefix_of_replace N _ cs
          (not_marker_tail _ _ (not_marker_tail _ _ hno)) (by decide) h3
        apply hno
        apply List.IsPrefix.isInfix
        show '.' :: 'b' :: "lock_sparse_moe.experts.".toList <+: '.' :: 'b' :: cs
        rw [List.cons_prefix_cons, List.cons_prefix_cons]
        exact ⟨rfl, rfl, h4⟩
      · obtain ⟨a, b, r, hnew, hhead⟩ := fixedPairs_new_head pr hpr
        rw [hr, hnew, List.cons_append, List.cons_append, List.cons_prefix_cons,
          show "lock_sparse_moe.experts.".toList = 'l' :: 'o' :: "ck_sparse_moe.experts.".toList
            from rfl, List.cons_append, List.cons_append, List.cons_append,
          List.cons_prefix_cons] at hp2
        rcases hhead with rfl | ⟨_, _, rfl⟩
        · exact absurd hp2.1 (by decide)
        · have h5 := hp2.2.2
          rw [List.singleton_append, List.cons_append, List.cons_prefix_cons] at h5
          exact absurd h5.1 (by decide)

theorem lookup_replace (N : Nat) (c : Char) (cs : List Char) (hno : ¬ marker <:+: c :: cs)
    (hl : lookup (oldnew N) (c :: cs) = none) :
    lookup (oldnew N) (c :: replaceFrom (oldnew N) 0 cs) = none := by
  by_cases hm : c = 'm'
  · subst hm
    exact lookup_replace_m N cs (not_marker_tail _ _ hno) hl
  · by_cases hw : c = 'w'
    · subst hw
      exact lookup_replace_w N cs (not_marker_tail _ _ hno) hl
    · by_cases hd : c = '.'
      · subst hd
        exact lookup_replace_dot N cs hno
      · exact lookup_other N c _ hm hw hd

theorem replaceFrom_idem (N : Nat) (n : Nat) :
    ∀ s : List Char, s.length ≤ n → ¬ marker <:+: s →
      replaceFrom (oldnew N) 0 (replaceFrom (oldnew N) 0 s) = replaceFrom (oldnew N) 0 s := by
  induction n with
  | zero =>
    intro s hs _
    have : s = [] := List.length_eq_zero.1 (Nat.le_zero.1 hs)
    subst this
    rfl
  | succ n ih =>
    intro s hs hno
    cases s with
    | nil => rfl
    | cons c cs =>
      rcases scan_step N c cs hno with ⟨hl, hr⟩ | ⟨pr, hpr, rest, hsplit, hr⟩
      · rw [hr, replaceFrom_none _ _ _ (lookup_replace N c cs hno hl),
          ih cs (by simpa using hs) (not_marker_tail _ _ hno)]
      · have hlen : rest.length ≤ n := by
          have h1 := congrArg List.length hsplit
          have h2 := List.length_pos.2 (fixedPairs_old_ne_nil pr hpr)
          simp only [List.length_cons, List.length_append] at h1 hs
          omega
        rw [hr, fixedPairs_new_stable N pr hpr,
          ih rest hlen (not_marker_rest pr.1 rest (hsplit ▸ hno))]

/-- C15: for every `NumLocalExperts` and every name that does not contain
`.block_sparse_moe.experts.`, rewriting the rewritten name gives the rewritten
name. -/
theorem namer_idempotent (N : Nat) (name : List Char)
    (h : contains ".block_sparse_moe.experts.".toList name = false) :
    Replace (oldnew N) (Replace (oldnew N) name) = Replace (oldnew N) name := by
  have hno : ¬ marker <:+: name := by
    intro hin
    have := (contains_iff marker name).2 hin
    rw [show marker = ".block_sparse_moe.experts.".toList from rfl, h] at this
    exact absurd this (by simp)
  exact replaceFrom_idem N name.length name (Nat.le_refl _) hno

/-- Witness of C15: the canonical name `blk.0.ffn_gate_exps.weight` with
`NumLocalExperts = 8`. -/
theorem namer_idempotent_witness :
    Replace (oldnew 8) (Replace (oldnew 8) "blk.0.ffn_gate_exps.weight".toList) =
      Replace (oldnew 8) "blk.0.ffn_gate_exps.weight".toList ∧
    Replace (oldnew 8) "blk.0.ffn_gate_exps.weight".toList =
      "blk.0.ffn_gate_exps.weight".toList :=
  ⟨namer_idempotent 8 "blk.0.ffn_gate_exps.weight".toList (by decide), by decide⟩

end Mixtral
